import Mathlib

/-!
# Verification of the nvmetcfg state model, delta engine and executor

This file gives a shallow embedding of the core of the `nvmetcfg`
NVMe-oF target configuration tool and proves properties of it.

The Rust sources use `BTreeMap`/`BTreeSet` as canonical sorted
containers.  We embed a `BTreeMap<K, V>` as a `List (K × V)` that is
strictly sorted by key (predicate `MapWF`), and a `BTreeSet<K>` as a
strictly sorted `List K` (predicate `SetWF`).  Iteration order of the
Rust containers is ascending key order, which is exactly the list
order of the embedding.
-/

set_option maxHeartbeats 1000000
set_option linter.unusedSectionVars false

section SortedContainers

variable {K : Type} {V : Type} [LinearOrder K]

/-- A `BTreeSet` embedded as a strictly ascending list. -/
def SetWF (l : List K) : Prop := l.Pairwise (· < ·)

/-- A `BTreeMap` embedded as an association list with strictly ascending keys. -/
def MapWF (l : List (K × V)) : Prop := (l.map Prod.fst).Pairwise (· < ·)

/-- `BTreeMap::get`: look a key up in the association list. -/
def lookup [DecidableEq K] : List (K × V) → K → Option V
  | [], _ => none
  | kv :: rest, k => if kv.1 = k then some kv.2 else lookup rest k

/-- `BTreeSet::insert`: ordered insertion, keeping the list sorted, no duplicates. -/
def setInsert (x : K) : List K → List K
  | [] => [x]
  | y :: ys => if x < y then x :: y :: ys else if x = y then y :: ys else y :: setInsert x ys

/-- `BTreeSet::remove`: drop an element from the set. -/
def setRemove [DecidableEq K] (x : K) (l : List K) : List K :=
  l.filter (fun y => decide (y ≠ x))

/-- `BTreeSet::difference`, iterated in ascending order: the elements of `a`
that are not in `b`, in the order of `a`. -/
def setDiff [DecidableEq K] (a b : List K) : List K :=
  a.filter (fun x => decide (x ∉ b))

/-- `BTreeMap::insert`: ordered insertion by key, replacing an existing binding. -/
def mapInsert (k : K) (v : V) : List (K × V) → List (K × V)
  | [] => [(k, v)]
  | kv :: rest =>
    if k < kv.1 then (k, v) :: kv :: rest
    else if k = kv.1 then (k, v) :: rest
    else kv :: mapInsert k v rest

/-- `BTreeMap::remove`: drop a binding from the map. -/
def mapRemove [DecidableEq K] (k : K) (l : List (K × V)) : List (K × V) :=
  l.filter (fun kv => decide (kv.1 ≠ k))

/-- Modify the value bound to `k`, if present. -/
def mapAdjust [DecidableEq K] (k : K) (f : V → V) (l : List (K × V)) : List (K × V) :=
  match lookup l k with
  | some v => mapInsert k (f v) l
  | none => l

@[simp] theorem lookup_nil [DecidableEq K] (k : K) : lookup ([] : List (K × V)) k = none := rfl

theorem lookup_cons [DecidableEq K] (kv : K × V) (rest : List (K × V)) (k : K) :
    lookup (kv :: rest) k = if kv.1 = k then some kv.2 else lookup rest k := rfl

theorem lookup_eq_none_of_forall [DecidableEq K] {l : List (K × V)} {k : K}
    (h : ∀ kv ∈ l, kv.1 ≠ k) : lookup l k = none := by
  induction l with
  | nil => rfl
  | cons kv rest ih =>
    rw [lookup_cons, if_neg (h kv (List.mem_cons_self kv rest))]
    exact ih (fun kv' h' => h kv' (List.mem_cons_of_mem kv h'))

theorem lookup_isSome_iff [DecidableEq K] {l : List (K × V)} {k : K} :
    (lookup l k).isSome ↔ ∃ v, (k, v) ∈ l := by
  induction l with
  | nil => simp
  | cons kv rest ih =>
    rw [lookup_cons]
    by_cases h : kv.1 = k
    · subst h
      rw [if_pos rfl]
      simp only [Option.isSome_some, true_iff]
      exact ⟨kv.2, List.mem_cons_self kv rest⟩
    · rw [if_neg h, ih]
      constructor
      · rintro ⟨v, hv⟩
        exact ⟨v, List.mem_cons_of_mem kv hv⟩
      · rintro ⟨v, hv⟩
        rcases List.mem_cons.mp hv with h1 | h1
        · exact absurd (congrArg Prod.fst h1.symm) h
        · exact ⟨v, h1⟩

theorem mem_of_lookup_eq_some [DecidableEq K] {l : List (K × V)} {k : K} {v : V}
    (h : lookup l k = some v) : (k, v) ∈ l := by
  induction l with
  | nil => simp [lookup] at h
  | cons kv rest ih =>
    rw [lookup_cons] at h
    by_cases hk : kv.1 = k
    · rw [if_pos hk] at h
      rcases kv with ⟨k', v'⟩
      simp only [Option.some.injEq] at h
      simp only at hk
      subst hk; subst h
      exact List.mem_cons_self _ _
    · rw [if_neg hk] at h
      exact List.mem_cons_of_mem kv (ih h)

theorem lookup_eq_some_of_mem [DecidableEq K] {l : List (K × V)} {k : K} {v : V}
    (hwf : MapWF l) (h : (k, v) ∈ l) : lookup l k = some v := by
  induction l with
  | nil => simp at h
  | cons kv rest ih =>
    rw [MapWF, List.map_cons, List.pairwise_cons] at hwf
    rcases List.mem_cons.mp h with h1 | h1
    · subst h1
      rw [lookup_cons, if_pos rfl]
    · rw [lookup_cons]
      have hne : kv.1 ≠ k := by
        intro he
        have := hwf.1 k (by simpa using ⟨v, h1⟩)
        exact absurd he (ne_of_lt this)
      rw [if_neg hne]
      exact ih hwf.2 h1

theorem mapwf_cons {kv : K × V} {rest : List (K × V)} (h : MapWF (kv :: rest)) :
    MapWF rest := by
  rw [MapWF, List.map_cons, List.pairwise_cons] at h
  exact h.2

/-- Strict sortedness forbids duplicates. -/
theorem setwf_nodup {l : List K} (h : SetWF l) : l.Nodup :=
  h.imp ne_of_lt

@[simp] theorem mem_setInsert {x a : K} {l : List K} :
    a ∈ setInsert x l ↔ a = x ∨ a ∈ l := by
  induction l with
  | nil => simp [setInsert]
  | cons y ys ih =>
    rw [setInsert]
    by_cases h1 : x < y
    · simp [if_pos h1]
    · rw [if_neg h1]
      by_cases h2 : x = y
      · subst h2
        rw [if_pos rfl]
        simp only [List.mem_cons]
        tauto
      · rw [if_neg h2]
        simp only [List.mem_cons, ih]
        tauto

theorem setwf_setInsert {x : K} {l : List K} (h : SetWF l) : SetWF (setInsert x l) := by
  induction l with
  | nil => simp [setInsert, SetWF]
  | cons y ys ih =>
    rw [SetWF, List.pairwise_cons] at h
    rw [setInsert]
    by_cases h1 : x < y
    · rw [if_pos h1, SetWF, List.pairwise_cons]
      refine ⟨?_, h.2.cons h.1⟩
      intro b hb
      rcases List.mem_cons.mp hb with rfl | hb
      · exact h1
      · exact lt_trans h1 (h.1 b hb)
    · rw [if_neg h1]
      by_cases h2 : x = y
      · rw [if_pos h2, SetWF, List.pairwise_cons]
        exact ⟨h.1, h.2⟩
      · rw [if_neg h2, SetWF, List.pairwise_cons]
        have hyx : y < x := lt_of_le_of_ne (not_lt.mp h1) (Ne.symm h2)
        refine ⟨?_, ih h.2⟩
        intro b hb
        rcases mem_setInsert.mp hb with rfl | hb
        · exact hyx
        · exact h.1 b hb

theorem setwf_filter {l : List K} (p : K → Bool) (h : SetWF l) : SetWF (l.filter p) :=
  List.Pairwise.sublist (List.filter_sublist l) h

/-- Two strictly sorted lists with the same members are equal. -/
theorem set_ext {a b : List K} (ha : SetWF a) (hb : SetWF b)
    (h : ∀ x, x ∈ a ↔ x ∈ b) : a = b := by
  induction a generalizing b with
  | nil =>
    cases b with
    | nil => rfl
    | cons y ys => exact absurd ((h y).mpr (List.mem_cons_self y ys)) (List.not_mem_nil y)
  | cons x xs ih =>
    cases b with
    | nil => exact absurd ((h x).mp (List.mem_cons_self x xs)) (List.not_mem_nil x)
    | cons y ys =>
      rw [SetWF, List.pairwise_cons] at ha hb
      have hxy : x = y := by
        rcases List.mem_cons.mp ((h x).mp (List.mem_cons_self x xs)) with h1 | h1
        · exact h1
        · rcases List.mem_cons.mp ((h y).mpr (List.mem_cons_self y ys)) with h2 | h2
          · exact h2.symm
          · exact absurd (lt_trans (hb.1 x h1) (ha.1 y h2)) (lt_irrefl _)
      subst hxy
      have htail : ∀ z, z ∈ xs ↔ z ∈ ys := by
        intro z
        constructor
        · intro hz
          rcases List.mem_cons.mp ((h z).mp (List.mem_cons_of_mem x hz)) with h1 | h1
          · exact absurd (h1 ▸ ha.1 z hz) (lt_irrefl _)
          · exact h1
        · intro hz
          rcases List.mem_cons.mp ((h z).mpr (List.mem_cons_of_mem x hz)) with h1 | h1
          · exact absurd (h1 ▸ hb.1 z hz) (lt_irrefl _)
          · exact h1
      rw [ih ha.2 hb.2 htail]

@[simp] theorem mem_setRemove [DecidableEq K] {x a : K} {l : List K} :
    a ∈ setRemove x l ↔ a ∈ l ∧ a ≠ x := by
  simp [setRemove, List.mem_filter]

theorem setwf_setRemove [DecidableEq K] {x : K} {l : List K} (h : SetWF l) :
    SetWF (setRemove x l) := setwf_filter _ h

@[simp] theorem lookup_mapInsert_self [DecidableEq K] (k : K) (v : V) (l : List (K × V)) :
    lookup (mapInsert k v l) k = some v := by
  induction l with
  | nil => simp [mapInsert, lookup]
  | cons kv rest ih =>
    rw [mapInsert]
    by_cases h1 : k < kv.1
    · rw [if_pos h1, lookup_cons, if_pos rfl]
    · rw [if_neg h1]
      by_cases h2 : k = kv.1
      · rw [if_pos h2, lookup_cons, if_pos rfl]
      · rw [if_neg h2, lookup_cons, if_neg (fun he => h2 he.symm)]
        exact ih

theorem lookup_mapInsert_ne [DecidableEq K] {k k' : K} (v : V) (l : List (K × V))
    (h : k' ≠ k) : lookup (mapInsert k v l) k' = lookup l k' := by
  induction l with
  | nil =>
    show lookup [(k, v)] k' = lookup [] k'
    rw [lookup_cons, if_neg (fun (he : k = k') => h he.symm)]
  | cons kv rest ih =>
    rw [mapInsert]
    by_cases h1 : k < kv.1
    · rw [if_pos h1, lookup_cons, if_neg (fun he => h he.symm), lookup_cons]
    · rw [if_neg h1]
      by_cases h2 : k = kv.1
      · subst h2
        rw [if_pos rfl, lookup_cons, if_neg (fun he => h he.symm), lookup_cons,
          if_neg (fun he => h he.symm)]
      · rw [if_neg h2, lookup_cons, lookup_cons, ih]

theorem mem_mapInsert {k : K} {v : V} {l : List (K × V)} {p : K × V}
    (hp : p ∈ mapInsert k v l) : p = (k, v) ∨ p ∈ l := by
  induction l with
  | nil => simp [mapInsert] at hp; simp [hp]
  | cons q qs ihq =>
    rw [mapInsert] at hp
    by_cases hq1 : k < q.1
    · rw [if_pos hq1] at hp
      rcases List.mem_cons.mp hp with rfl | h1
      · exact Or.inl rfl
      · exact Or.inr h1
    · rw [if_neg hq1] at hp
      by_cases hq2 : k = q.1
      · rw [if_pos hq2] at hp
        rcases List.mem_cons.mp hp with rfl | h1
        · exact Or.inl rfl
        · exact Or.inr (List.mem_cons_of_mem _ h1)
      · rw [if_neg hq2] at hp
        rcases List.mem_cons.mp hp with rfl | h1
        · exact Or.inr (List.mem_cons_self _ _)
        · rcases ihq h1 with h2 | h2
          · exact Or.inl h2
          · exact Or.inr (List.mem_cons_of_mem _ h2)

theorem mapwf_mapInsert [DecidableEq K] {l : List (K × V)} (k : K) (v : V)
    (h : MapWF l) : MapWF (mapInsert k v l) := by
  induction l with
  | nil => simp [mapInsert, MapWF]
  | cons kv rest ih =>
    rw [MapWF, List.map_cons, List.pairwise_cons] at h
    rw [mapInsert]
    by_cases h1 : k < kv.1
    · rw [if_pos h1, MapWF, List.map_cons, List.map_cons, List.pairwise_cons]
      refine ⟨?_, ?_⟩
      · intro b hb
        rcases List.mem_cons.mp hb with rfl | hb
        · exact h1
        · exact lt_trans h1 (h.1 b hb)
      · rw [List.pairwise_cons]
        exact ⟨h.1, h.2⟩
    · rw [if_neg h1]
      by_cases h2 : k = kv.1
      · subst h2
        rw [if_pos rfl, MapWF, List.map_cons, List.pairwise_cons]
        exact ⟨h.1, h.2⟩
      · rw [if_neg h2, MapWF, List.map_cons, List.pairwise_cons]
        have hlt : kv.1 < k := lt_of_le_of_ne (not_lt.mp h1) (Ne.symm h2)
        refine ⟨?_, ih h.2⟩
        intro b hb
        rw [List.mem_map] at hb
        rcases hb with ⟨p, hp, rfl⟩
        rcases mem_mapInsert hp with rfl | hmem
        · exact hlt
        · exact h.1 p.1 (List.mem_map.mpr ⟨p, hmem, rfl⟩)

@[simp] theorem lookup_mapRemove_self [DecidableEq K] (k : K) (l : List (K × V)) :
    lookup (mapRemove k l) k = none := by
  refine lookup_eq_none_of_forall ?_
  intro kv hkv
  rw [mapRemove, List.mem_filter] at hkv
  simpa using hkv.2

theorem lookup_mapRemove_ne [DecidableEq K] {k k' : K} (l : List (K × V)) (h : k' ≠ k) :
    lookup (mapRemove k l) k' = lookup l k' := by
  induction l with
  | nil => rfl
  | cons kv rest ih =>
    by_cases h1 : kv.1 = k
    · have hstep : mapRemove k (kv :: rest) = mapRemove k rest := by
        rw [mapRemove, mapRemove, List.filter_cons, if_neg (by simp [h1])]
      rw [hstep, ih, lookup_cons,
        if_neg (fun (he : kv.1 = k') => h (show k' = k by rw [← he]; exact h1))]
    · have hstep : mapRemove k (kv :: rest) = kv :: mapRemove k rest := by
        rw [mapRemove, mapRemove, List.filter_cons, if_pos (by simp [h1])]
      rw [hstep, lookup_cons, lookup_cons, ih]

theorem mapwf_mapRemove [DecidableEq K] (k : K) {l : List (K × V)} (h : MapWF l) :
    MapWF (mapRemove k l) := by
  rw [MapWF]
  exact List.Pairwise.sublist (List.Sublist.map Prod.fst (List.filter_sublist l)) h

theorem lookup_mapAdjust_self [DecidableEq K] {k : K} (f : V → V) {l : List (K × V)} :
    lookup (mapAdjust k f l) k = (lookup l k).map f := by
  cases h : lookup l k with
  | none => simp [mapAdjust, h]
  | some v => simp [mapAdjust, h]

theorem lookup_mapAdjust_ne [DecidableEq K] {k k' : K} (f : V → V) (l : List (K × V))
    (h : k' ≠ k) : lookup (mapAdjust k f l) k' = lookup l k' := by
  cases hl : lookup l k with
  | none => simp [mapAdjust, hl]
  | some v =>
    simp only [mapAdjust, hl]
    exact lookup_mapInsert_ne _ _ h

theorem mapwf_mapAdjust [DecidableEq K] (k : K) (f : V → V) {l : List (K × V)}
    (h : MapWF l) : MapWF (mapAdjust k f l) := by
  cases hl : lookup l k with
  | none => simpa [mapAdjust, hl] using h
  | some v =>
    simp only [mapAdjust, hl]
    exact mapwf_mapInsert _ _ h

/-- Two maps with strictly sorted keys and identical lookups are equal. -/
theorem map_ext [DecidableEq K] {a b : List (K × V)} (ha : MapWF a) (hb : MapWF b)
    (h : ∀ k, lookup a k = lookup b k) : a = b := by
  induction a generalizing b with
  | nil =>
    cases b with
    | nil => rfl
    | cons kv rest =>
      have := h kv.1
      rw [lookup_nil, lookup_cons, if_pos rfl] at this
      exact absurd this (by simp)
  | cons kv rest ih =>
    cases b with
    | nil =>
      have := h kv.1
      rw [lookup_nil, lookup_cons, if_pos rfl] at this
      exact absurd this (by simp)
    | cons kv' rest' =>
      rw [MapWF, List.map_cons, List.pairwise_cons] at ha hb
      have hkeys : kv.1 = kv'.1 := by
        by_contra hne
        rcases lt_or_gt_of_ne hne with hlt | hgt
        · have h1 := h kv.1
          rw [lookup_cons, if_pos rfl, lookup_cons, if_neg (ne_of_gt hlt)] at h1
          have h2 : lookup rest' kv.1 = none := by
            refine lookup_eq_none_of_forall ?_
            intro p hp
            exact ne_of_gt (lt_trans hlt (hb.1 p.1 (List.mem_map.mpr ⟨p, hp, rfl⟩)))
          rw [h2] at h1
          exact absurd h1 (by simp)
        · have h1 := h kv'.1
          rw [lookup_cons, if_neg (ne_of_gt hgt), lookup_cons, if_pos rfl] at h1
          have h2 : lookup rest kv'.1 = none := by
            refine lookup_eq_none_of_forall ?_
            intro p hp
            exact ne_of_gt (lt_trans hgt (ha.1 p.1 (List.mem_map.mpr ⟨p, hp, rfl⟩)))
          rw [h2] at h1
          exact absurd h1.symm (by simp)
      have hvals : kv.2 = kv'.2 := by
        have h1 := h kv.1
        rw [lookup_cons, if_pos rfl, lookup_cons, if_pos hkeys.symm] at h1
        exact Option.some.inj h1
      have htail : ∀ k, lookup rest k = lookup rest' k := by
        intro k
        by_cases hk : kv.1 = k
        · subst hk
          rw [lookup_eq_none_of_forall (fun p hp =>
              ne_of_gt (ha.1 p.1 (List.mem_map.mpr ⟨p, hp, rfl⟩))),
            lookup_eq_none_of_forall (fun p hp =>
              ne_of_gt (hkeys ▸ hb.1 p.1 (List.mem_map.mpr ⟨p, hp, rfl⟩)))]
        · have h1 := h k
          rw [lookup_cons, if_neg hk, lookup_cons, if_neg (hkeys ▸ hk)] at h1
          exact h1
      have : kv = kv' := Prod.ext hkeys hvals
      rw [this, ih ha.2 hb.2 htail]

theorem setInsert_eq_append {x : K} {l : List K} (h : ∀ y ∈ l, y < x) :
    setInsert x l = l ++ [x] := by
  induction l with
  | nil => rfl
  | cons y ys ih =>
    have hy : y < x := h y (List.mem_cons_self y ys)
    rw [setInsert, if_neg (asymm hy), if_neg (ne_of_gt hy), List.cons_append,
      ih (fun z hz => h z (List.mem_cons_of_mem y hz))]

/-- Folding a conditional `BTreeSet::insert` of ascending keys over a sorted
association list produces the keys of the filtered list, in order. -/
theorem foldl_condInsert_eq [DecidableEq K] (l : List (K × V)) (p : K × V → Prop)
    [DecidablePred p]
    (acc : List K) (hacc : SetWF acc) (hcross : ∀ x ∈ acc, ∀ kv ∈ l, x < kv.1)
    (hl : MapWF l) :
    l.foldl (fun a kv => if p kv then setInsert kv.1 a else a) acc
      = acc ++ (l.filter (fun kv => decide (p kv))).map Prod.fst := by
  induction l generalizing acc with
  | nil => simp
  | cons kv rest ih =>
    rw [MapWF, List.map_cons, List.pairwise_cons] at hl
    rw [List.foldl_cons, List.filter_cons]
    by_cases hp : p kv
    · rw [if_pos hp, if_pos (by simpa using hp)]
      have hstep : setInsert kv.1 acc = acc ++ [kv.1] :=
        setInsert_eq_append (fun y hy => hcross y hy kv (List.mem_cons_self kv rest))
      rw [hstep, ih (acc ++ [kv.1]) ?_ ?_ hl.2]
      · simp
      · rw [SetWF, List.pairwise_append]
        refine ⟨hacc, List.pairwise_singleton _ _, ?_⟩
        intro x hx y hy
        rw [List.mem_singleton] at hy
        exact hy ▸ hcross x hx kv (List.mem_cons_self kv rest)
      · intro x hx kv' hkv'
        rcases List.mem_append.mp hx with hx1 | hx1
        · exact hcross x hx1 kv' (List.mem_cons_of_mem kv hkv')
        · rw [List.mem_singleton] at hx1
          exact hx1 ▸ hl.1 kv'.1 (List.mem_map.mpr ⟨kv', hkv', rfl⟩)
    · rw [if_neg hp, if_neg (by simpa using hp)]
      exact ih acc hacc
        (fun x hx kv' hkv' => hcross x hx kv' (List.mem_cons_of_mem kv hkv')) hl.2

theorem setwf_filter_keys [DecidableEq K] {l : List (K × V)} (p : K × V → Bool)
    (h : MapWF l) : SetWF ((l.filter p).map Prod.fst) :=
  List.Pairwise.sublist (List.Sublist.map Prod.fst (List.filter_sublist l)) h

theorem mem_foldl_setRemove [DecidableEq K] (ks : List K) (base : List K) (a : K) :
    a ∈ ks.foldl (fun s x => setRemove x s) base ↔ a ∈ base ∧ a ∉ ks := by
  induction ks generalizing base with
  | nil => simp
  | cons x ks ih =>
    rw [List.foldl_cons, ih]
    simp only [mem_setRemove, List.mem_cons]
    tauto

theorem setwf_foldl_setRemove [DecidableEq K] (ks : List K) {base : List K}
    (h : SetWF base) : SetWF (ks.foldl (fun s x => setRemove x s) base) := by
  induction ks generalizing base with
  | nil => exact h
  | cons x ks ih => exact ih (setwf_setRemove h)

theorem mem_foldl_setInsert (ks : List K) (base : List K) (a : K) :
    a ∈ ks.foldl (fun s x => setInsert x s) base ↔ a ∈ base ∨ a ∈ ks := by
  induction ks generalizing base with
  | nil => simp
  | cons x ks ih =>
    rw [List.foldl_cons, ih]
    simp only [mem_setInsert, List.mem_cons]
    tauto

theorem setwf_foldl_setInsert (ks : List K) {base : List K}
    (h : SetWF base) : SetWF (ks.foldl (fun s x => setInsert x s) base) := by
  induction ks generalizing base with
  | nil => exact h
  | cons x ks ih => exact ih (setwf_setInsert h)

theorem lookup_foldl_mapRemove [DecidableEq K] (ks : List K) (m : List (K × V)) (k : K) :
    lookup (ks.foldl (fun m' k' => mapRemove k' m') m) k
      = if k ∈ ks then none else lookup m k := by
  induction ks generalizing m with
  | nil => simp
  | cons x ks ih =>
    rw [List.foldl_cons, ih]
    by_cases hk : k ∈ ks
    · rw [if_pos hk, if_pos (List.mem_cons_of_mem x hk)]
    · rw [if_neg hk]
      by_cases hx : k = x
      · subst hx
        rw [if_pos (List.mem_cons_self k ks), lookup_mapRemove_self]
      · rw [if_neg (by simp [hx, hk]), lookup_mapRemove_ne m hx]

theorem mapwf_foldl_mapRemove [DecidableEq K] (ks : List K) {m : List (K × V)}
    (h : MapWF m) : MapWF (ks.foldl (fun m' k' => mapRemove k' m') m) := by
  induction ks generalizing m with
  | nil => exact h
  | cons x ks ih => exact ih (mapwf_mapRemove x h)

theorem lookup_foldl_mapInsert [DecidableEq K] (ks : List K) (f : K → V)
    (m : List (K × V)) (k : K) :
    lookup (ks.foldl (fun m' k' => mapInsert k' (f k') m') m) k
      = if k ∈ ks then some (f k) else lookup m k := by
  induction ks generalizing m with
  | nil => simp
  | cons x ks ih =>
    rw [List.foldl_cons, ih]
    by_cases hk : k ∈ ks
    · rw [if_pos hk, if_pos (List.mem_cons_of_mem x hk)]
    · rw [if_neg hk]
      by_cases hx : k = x
      · subst hx
        rw [if_pos (List.mem_cons_self k ks), lookup_mapInsert_self]
      · rw [if_neg (by simp [hx, hk]), lookup_mapInsert_ne _ m hx]

theorem mapwf_foldl_mapInsert [DecidableEq K] (ks : List K) (f : K → V)
    {m : List (K × V)} (h : MapWF m) :
    MapWF (ks.foldl (fun m' k' => mapInsert k' (f k') m') m) := by
  induction ks generalizing m with
  | nil => exact h
  | cons x ks ih => exact ih (mapwf_mapInsert _ _ h)

theorem lookup_foldl_mapAdjust [DecidableEq K] (ks : List K) (g : K → V → V)
    (m : List (K × V)) (k : K) (hnd : ks.Nodup) :
    lookup (ks.foldl (fun m' k' => mapAdjust k' (g k') m') m) k
      = if k ∈ ks then (lookup m k).map (g k) else lookup m k := by
  induction ks generalizing m with
  | nil => simp
  | cons x ks ih =>
    rw [List.nodup_cons] at hnd
    rw [List.foldl_cons, ih _ hnd.2]
    by_cases hk : k ∈ ks
    · rw [if_pos hk, if_pos (List.mem_cons_of_mem x hk),
        lookup_mapAdjust_ne _ _ (fun (he : k = x) => hnd.1 (he ▸ hk))]
    · rw [if_neg hk]
      by_cases hx : k = x
      · subst hx
        rw [if_pos (List.mem_cons_self k ks), lookup_mapAdjust_self]
      · rw [if_neg (by simp [hx, hk]), lookup_mapAdjust_ne _ _ hx]

theorem mapwf_foldl_mapAdjust [DecidableEq K] (ks : List K) (g : K → V → V)
    {m : List (K × V)} (h : MapWF m) :
    MapWF (ks.foldl (fun m' k' => mapAdjust k' (g k') m') m) := by
  induction ks generalizing m with
  | nil => exact h
  | cons x ks ih => exact ih (mapwf_mapAdjust _ _ h)

end SortedContainers

/-!
## State model (`src/state/types.rs`)

`SocketAddr` (std) is embedded structurally: an IPv4/IPv6 flag together
with the address text and the 16-bit port; only equality of socket
addresses matters to the delta engine.  `Uuid` is embedded as its
128-bit value; only equality matters to the delta engine.  `u16`/`u32`
ids and `u64` WWNs are embedded as `Nat` (no arithmetic is performed on
them, so no wraparound can occur).
-/

/-- NQNs are ASCII strings; embedded as their character list, which is
ordered exactly like Rust `String` (UTF-8 byte order coincides with
code-point order). -/
abbrev NQN : Type := List Char

structure SocketAddr where
  isV6 : Bool
  ip : String
  port : Nat
deriving DecidableEq, Repr

structure Uuid where
  val : Nat
deriving DecidableEq, Repr

/-- `FibreChannelAddr { wwnn: u64, wwpn: u64 }`. -/
structure FibreChannelAddr where
  wwnn : Nat
  wwpn : Nat
deriving DecidableEq, Repr

/-- `PortType`: tagged variant with four cases. -/
inductive PortType where
  | Loop
  | Tcp (addr : SocketAddr)
  | Rdma (addr : SocketAddr)
  | FibreChannel (addr : FibreChannelAddr)
deriving DecidableEq, Repr

/-- `Namespace { enabled, device_path, device_uuid, device_nguid }`. -/
structure Namespace where
  enabled : Bool
  device_path : String
  device_uuid : Option Uuid
  device_nguid : Option Uuid
deriving DecidableEq, Repr

/-- `Port { port_type, subsystems: BTreeSet<String> }`. -/
structure Port where
  port_type : PortType
  subsystems : List NQN
deriving DecidableEq, Repr

/-- `Subsystem { model, serial, allowed_hosts: BTreeSet<String>,
namespaces: BTreeMap<u32, Namespace> }`. -/
structure Subsystem where
  model : Option String
  serial : Option String
  allowed_hosts : List NQN
  namespaces : List (Nat × Namespace)
deriving DecidableEq, Repr

/-- `State { subsystems: BTreeMap<String, Subsystem>, ports: BTreeMap<u16, Port> }`. -/
structure State where
  subsystems : List (NQN × Subsystem)
  ports : List (Nat × Port)
deriving DecidableEq, Repr

/-- `Subsystem::default()`: both options `None`, both containers empty. -/
instance : Inhabited Subsystem := ⟨⟨none, none, [], []⟩⟩

instance : Inhabited Port := ⟨⟨PortType.Loop, []⟩⟩

instance : Inhabited Namespace := ⟨⟨false, "", none, none⟩⟩

/-- `State::default()`: empty maps. -/
def State.default : State := ⟨[], []⟩

/-- Well-formedness of the embedding: the `BTreeSet` is sorted. -/
def Port.WF (p : Port) : Prop := SetWF p.subsystems

def Subsystem.WF (s : Subsystem) : Prop := SetWF s.allowed_hosts ∧ MapWF s.namespaces

def State.WF (st : State) : Prop :=
  MapWF st.subsystems ∧ MapWF st.ports ∧
    (∀ kv ∈ st.subsystems, Subsystem.WF kv.2) ∧ (∀ kv ∈ st.ports, Port.WF kv.2)

instance (p : Port) : Decidable p.WF := by
  unfold Port.WF SetWF; infer_instance

instance (s : Subsystem) : Decidable s.WF := by
  unfold Subsystem.WF SetWF MapWF; infer_instance

instance (st : State) : Decidable st.WF := by
  unfold State.WF Subsystem.WF Port.WF SetWF MapWF; infer_instance

/-!
## Diff helper (`src/helpers/hash_differences.rs`)
-/

/-- `BTreeMapDelta { same, removed, changed, added : BTreeSet<K> }`. -/
structure BTreeMapDelta (K : Type) where
  same : List K
  removed : List K
  changed : List K
  added : List K
deriving Repr

/-- The loop body classifying a key of `base` against `new`. -/
def diffStep {K V : Type} [LinearOrder K] [DecidableEq K] [DecidableEq V] (new : List (K × V))
    (d : BTreeMapDelta K) (kv : K × V) : BTreeMapDelta K :=
  if lookup new kv.1 = none then { d with removed := setInsert kv.1 d.removed }
  else if lookup new kv.1 = some kv.2 then { d with same := setInsert kv.1 d.same }
  else { d with changed := setInsert kv.1 d.changed }

/-- The loop body collecting keys of `new` absent from `base`. -/
def addStep {K V : Type} [LinearOrder K] [DecidableEq K] [DecidableEq V] (base : List (K × V))
    (d : BTreeMapDelta K) (kv : K × V) : BTreeMapDelta K :=
  if lookup base kv.1 = none then { d with added := setInsert kv.1 d.added } else d

/-- `get_btreemap_differences`: classify the keys of `base` as
removed/same/changed by looking them up in `new`, then the keys of `new`
absent from `base` as added.  Each classified key is inserted into the
corresponding `BTreeSet`, exactly as the Rust loops do. -/
def get_btreemap_differences {K V : Type} [LinearOrder K] [DecidableEq K] [DecidableEq V]
    (base new : List (K × V)) : BTreeMapDelta K :=
  new.foldl (addStep base) (base.foldl (diffStep new) ⟨[], [], [], []⟩)

/-!
## Delta engine (`src/state/delta.rs`)
-/

inductive PortDelta where
  | UpdatePortType (pt : PortType)
  | AddSubsystem (nqn : NQN)
  | RemoveSubsystem (nqn : NQN)
deriving DecidableEq, Repr

inductive SubsystemDelta where
  | UpdateModel (s : String)
  | UpdateSerial (s : String)
  | AddHost (nqn : NQN)
  | RemoveHost (nqn : NQN)
  | AddNamespace (nsid : Nat) (ns : Namespace)
  | UpdateNamespace (nsid : Nat) (ns : Namespace)
  | RemoveNamespace (nsid : Nat)
deriving DecidableEq, Repr

inductive StateDelta where
  | AddPort (id : Nat) (port : Port)
  | UpdatePort (id : Nat) (deltas : List PortDelta)
  | RemovePort (id : Nat)
  | AddSubsystem (nqn : NQN) (sub : Subsystem)
  | UpdateSubsystem (nqn : NQN) (deltas : List SubsystemDelta)
  | RemoveSubsystem (nqn : NQN)
deriving DecidableEq, Repr

/-- `Port::get_deltas`: removals of subsystems not in `other`, then the
port-type update if it differs, then additions of subsystems not in
`self`, pushed in iteration order. -/
def Port.get_deltas (self other : Port) : List PortDelta :=
  ((setDiff self.subsystems other.subsystems).map PortDelta.RemoveSubsystem)
    ++ (if self.port_type = other.port_type then [] else
        [PortDelta.UpdatePortType other.port_type])
    ++ ((setDiff other.subsystems self.subsystems).map PortDelta.AddSubsystem)

/-- The deltas pushed by the model-update step of `Subsystem::get_deltas`:
one `UpdateModel` when the models differ and the new model is `Some`. -/
def modelDeltas (self other : Option String) : List SubsystemDelta :=
  if self ≠ other then
    match other with
    | some model => [SubsystemDelta.UpdateModel model]
    | none => []
  else []

/-- The deltas pushed by the serial-update step of `Subsystem::get_deltas`:
one `UpdateSerial` when the serials differ and the new serial is `Some`. -/
def serialDeltas (self other : Option String) : List SubsystemDelta :=
  if self ≠ other then
    match other with
    | some serial => [SubsystemDelta.UpdateSerial serial]
    | none => []
  else []

/-- `Subsystem::get_deltas`: model/serial updates (only when the new value
is `Some`), host additions, namespace removals/updates/additions, host
removals, pushed in iteration order.  The `.unwrap()` on map lookups of
keys known to be present is embedded as `Option.getD` with the default
value (the looked-up key is always present). -/
def Subsystem.get_deltas (self other : Subsystem) : List SubsystemDelta :=
  let namespace_changes := get_btreemap_differences self.namespaces other.namespaces
  modelDeltas self.model other.model
  ++ serialDeltas self.serial other.serial
  ++ ((setDiff other.allowed_hosts self.allowed_hosts).map SubsystemDelta.AddHost)
  ++ (namespace_changes.removed.map SubsystemDelta.RemoveNamespace)
  ++ (namespace_changes.changed.map (fun nsid =>
        SubsystemDelta.UpdateNamespace nsid ((lookup other.namespaces nsid).getD default)))
  ++ (namespace_changes.added.map (fun nsid =>
        SubsystemDelta.AddNamespace nsid ((lookup other.namespaces nsid).getD default)))
  ++ ((setDiff self.allowed_hosts other.allowed_hosts).map SubsystemDelta.RemoveHost)

/-- `State::get_deltas`: port removals, subsystem removals, subsystem
updates, subsystem additions, port updates, port additions, pushed in
iteration order. -/
def State.get_deltas (self other : State) : List StateDelta :=
  let port_changes := get_btreemap_differences self.ports other.ports
  let subsystem_changes := get_btreemap_differences self.subsystems other.subsystems
  (port_changes.removed.map StateDelta.RemovePort)
  ++ (subsystem_changes.removed.map StateDelta.RemoveSubsystem)
  ++ (subsystem_changes.changed.map (fun nqn =>
        StateDelta.UpdateSubsystem nqn
          (Subsystem.get_deltas ((lookup self.subsystems nqn).getD Inhabited.default)
            ((lookup other.subsystems nqn).getD Inhabited.default))))
  ++ (subsystem_changes.added.map (fun nqn =>
        StateDelta.AddSubsystem nqn ((lookup other.subsystems nqn).getD Inhabited.default)))
  ++ (port_changes.changed.map (fun id =>
        StateDelta.UpdatePort id
          (Port.get_deltas ((lookup self.ports id).getD Inhabited.default)
            ((lookup other.ports id).getD Inhabited.default))))
  ++ (port_changes.added.map (fun id =>
        StateDelta.AddPort id ((lookup other.ports id).getD Inhabited.default)))

/-!
### The four components of `get_btreemap_differences` as filters

Under sortedness of the inputs, each component of the diff is the
sorted list of keys passing the corresponding test.
-/

section DiffLemmas

variable {K V : Type} [LinearOrder K] [DecidableEq K] [DecidableEq V]

theorem foldl_diffStep_removed (new : List (K × V)) (base : List (K × V))
    (d0 : BTreeMapDelta K) :
    (base.foldl (diffStep new) d0).removed
      = base.foldl (fun a kv => if lookup new kv.1 = none then setInsert kv.1 a else a)
          d0.removed := by
  induction base generalizing d0 with
  | nil => rfl
  | cons kv rest ih =>
    rw [List.foldl_cons, List.foldl_cons, ih]
    congr 1
    by_cases h1 : lookup new kv.1 = none
    · simp [diffStep, h1]
    · by_cases h2 : lookup new kv.1 = some kv.2
      · simp [diffStep, h1, h2]
      · simp [diffStep, h1, h2]

theorem foldl_diffStep_changed (new : List (K × V)) (base : List (K × V))
    (d0 : BTreeMapDelta K) :
    (base.foldl (diffStep new) d0).changed
      = base.foldl (fun a kv =>
          if ¬lookup new kv.1 = none ∧ ¬lookup new kv.1 = some kv.2
          then setInsert kv.1 a else a) d0.changed := by
  induction base generalizing d0 with
  | nil => rfl
  | cons kv rest ih =>
    rw [List.foldl_cons, List.foldl_cons, ih]
    congr 1
    by_cases h1 : lookup new kv.1 = none
    · simp [diffStep, h1]
    · by_cases h2 : lookup new kv.1 = some kv.2
      · simp [diffStep, h1, h2]
      · simp [diffStep, h1, h2]

theorem foldl_diffStep_added (new : List (K × V)) (base : List (K × V))
    (d0 : BTreeMapDelta K) :
    (base.foldl (diffStep new) d0).added = d0.added := by
  induction base generalizing d0 with
  | nil => rfl
  | cons kv rest ih =>
    rw [List.foldl_cons, ih]
    by_cases h1 : lookup new kv.1 = none
    · simp [diffStep, h1]
    · by_cases h2 : lookup new kv.1 = some kv.2
      · simp [diffStep, h1, h2]
      · simp [diffStep, h1, h2]

theorem foldl_addStep_added (base : List (K × V)) (new : List (K × V))
    (d0 : BTreeMapDelta K) :
    (new.foldl (addStep base) d0).added
      = new.foldl (fun a kv => if lookup base kv.1 = none then setInsert kv.1 a else a)
          d0.added := by
  induction new generalizing d0 with
  | nil => rfl
  | cons kv rest ih =>
    rw [List.foldl_cons, List.foldl_cons, ih]
    congr 1
    by_cases h1 : lookup base kv.1 = none
    · simp [addStep, h1]
    · simp [addStep, h1]

theorem foldl_addStep_removed (base : List (K × V)) (new : List (K × V))
    (d0 : BTreeMapDelta K) :
    (new.foldl (addStep base) d0).removed = d0.removed := by
  induction new generalizing d0 with
  | nil => rfl
  | cons kv rest ih =>
    rw [List.foldl_cons, ih]
    by_cases h1 : lookup base kv.1 = none
    · simp [addStep, h1]
    · simp [addStep, h1]

theorem foldl_addStep_changed (base : List (K × V)) (new : List (K × V))
    (d0 : BTreeMapDelta K) :
    (new.foldl (addStep base) d0).changed = d0.changed := by
  induction new generalizing d0 with
  | nil => rfl
  | cons kv rest ih =>
    rw [List.foldl_cons, ih]
    by_cases h1 : lookup base kv.1 = none
    · simp [addStep, h1]
    · simp [addStep, h1]

/-- The `removed` component is the sorted list of base keys absent from `new`. -/
theorem diff_removed_eq (base new : List (K × V)) (hbase : MapWF base) :
    (get_btreemap_differences base new).removed
      = (base.filter (fun kv => decide (lookup new kv.1 = none))).map Prod.fst := by
  rw [get_btreemap_differences, foldl_addStep_removed, foldl_diffStep_removed]
  exact foldl_condInsert_eq base (fun kv => lookup new kv.1 = none) [] (by simp [SetWF])
    (by simp) hbase

/-- The `changed` component is the sorted list of base keys present in `new`
with a different value. -/
theorem diff_changed_eq (base new : List (K × V)) (hbase : MapWF base) :
    (get_btreemap_differences base new).changed
      = (base.filter (fun kv =>
          decide (¬lookup new kv.1 = none ∧ ¬lookup new kv.1 = some kv.2))).map Prod.fst := by
  rw [get_btreemap_differences, foldl_addStep_changed, foldl_diffStep_changed]
  exact foldl_condInsert_eq base
    (fun kv => ¬lookup new kv.1 = none ∧ ¬lookup new kv.1 = some kv.2) [] (by simp [SetWF])
    (by simp) hbase

/-- The `added` component is the sorted list of new keys absent from `base`. -/
theorem diff_added_eq (base new : List (K × V)) (hnew : MapWF new) :
    (get_btreemap_differences base new).added
      = (new.filter (fun kv => decide (lookup base kv.1 = none))).map Prod.fst := by
  rw [get_btreemap_differences, foldl_addStep_added, foldl_diffStep_added]
  exact foldl_condInsert_eq new (fun kv => lookup base kv.1 = none) [] (by simp [SetWF])
    (by simp) hnew

end DiffLemmas

/-!
### Spec-side description of the top-level delta list

Modelled from the spec, §4.3 "Top-level ordering": the emitted list is
the concatenation of six groups — port removals, subsystem removals,
subsystem updates, subsystem additions, port updates, port additions —
each group iterating its keys in ascending order.
-/

def specTopLevelDeltas (B D : State) : List StateDelta :=
  ((B.ports.filter (fun kv => decide (lookup D.ports kv.1 = none))).map
      (fun kv => StateDelta.RemovePort kv.1))
  ++ ((B.subsystems.filter (fun kv => decide (lookup D.subsystems kv.1 = none))).map
      (fun kv => StateDelta.RemoveSubsystem kv.1))
  ++ ((B.subsystems.filter (fun kv =>
        decide (¬lookup D.subsystems kv.1 = none ∧ ¬lookup D.subsystems kv.1 = some kv.2))).map
      (fun kv => StateDelta.UpdateSubsystem kv.1
        (Subsystem.get_deltas kv.2 ((lookup D.subsystems kv.1).getD Inhabited.default))))
  ++ ((D.subsystems.filter (fun kv => decide (lookup B.subsystems kv.1 = none))).map
      (fun kv => StateDelta.AddSubsystem kv.1 kv.2))
  ++ ((B.ports.filter (fun kv =>
        decide (¬lookup D.ports kv.1 = none ∧ ¬lookup D.ports kv.1 = some kv.2))).map
      (fun kv => StateDelta.UpdatePort kv.1
        (Port.get_deltas kv.2 ((lookup D.ports kv.1).getD Inhabited.default))))
  ++ ((D.ports.filter (fun kv => decide (lookup B.ports kv.1 = none))).map
      (fun kv => StateDelta.AddPort kv.1 kv.2))

/-- On well-formed states, the delta engine emits exactly the six ordered
groups described by the spec. -/
theorem get_deltas_eq_spec (B D : State) (hB : B.WF) (hD : D.WF) :
    B.get_deltas D = specTopLevelDeltas B D := by
  obtain ⟨hBs, hBp, _, _⟩ := hB
  obtain ⟨hDs, hDp, _, _⟩ := hD
  simp only [State.get_deltas, specTopLevelDeltas]
  rw [diff_removed_eq _ _ hBp, diff_removed_eq _ _ hBs, diff_changed_eq _ _ hBs,
    diff_added_eq _ _ hDs, diff_changed_eq _ _ hBp, diff_added_eq _ _ hDp]
  congr 1
  · congr 1
    · congr 1
      · congr 1
        · congr 1
          · rw [List.map_map]
            rfl
          · rw [List.map_map]
            rfl
        · rw [List.map_map, List.map_eq_map_iff]
          intro kv hkv
          have hlook : lookup B.subsystems kv.1 = some kv.2 :=
            lookup_eq_some_of_mem hBs (List.mem_of_mem_filter hkv)
          simp only [Function.comp_apply, hlook, Option.getD_some]
      · rw [List.map_map, List.map_eq_map_iff]
        intro kv hkv
        have hlook : lookup D.subsystems kv.1 = some kv.2 :=
          lookup_eq_some_of_mem hDs (List.mem_of_mem_filter hkv)
        simp only [Function.comp_apply, hlook, Option.getD_some]
    · rw [List.map_map, List.map_eq_map_iff]
      intro kv hkv
      have hlook : lookup B.ports kv.1 = some kv.2 :=
        lookup_eq_some_of_mem hBp (List.mem_of_mem_filter hkv)
      simp only [Function.comp_apply, hlook, Option.getD_some]
  · rw [List.map_map, List.map_eq_map_iff]
    intro kv hkv
    have hlook : lookup D.ports kv.1 = some kv.2 :=
      lookup_eq_some_of_mem hDp (List.mem_of_mem_filter hkv)
    simp only [Function.comp_apply, hlook, Option.getD_some]

/-!
## Pure in-memory apply model

Modelled from the spec (§4.3 and §8, property 3 "Delta soundness"):
the pure apply model of the `StateDelta` semantics.  Add inserts the
entity, Remove deletes it, Update adjusts the existing entity by
applying its sub-deltas in order; `UpdateModel`/`UpdateSerial` set the
corresponding optional field to the given value, host/subsystem-set
deltas insert or remove one element, and namespace deltas
insert/replace/remove the namespace under its NSID.
-/

def Port.applyDelta (p : Port) : PortDelta → Port
  | PortDelta.UpdatePortType pt => { p with port_type := pt }
  | PortDelta.AddSubsystem nqn => { p with subsystems := setInsert nqn p.subsystems }
  | PortDelta.RemoveSubsystem nqn => { p with subsystems := setRemove nqn p.subsystems }

def Subsystem.applyDelta (s : Subsystem) : SubsystemDelta → Subsystem
  | SubsystemDelta.UpdateModel m => { s with model := some m }
  | SubsystemDelta.UpdateSerial sr => { s with serial := some sr }
  | SubsystemDelta.AddHost h => { s with allowed_hosts := setInsert h s.allowed_hosts }
  | SubsystemDelta.RemoveHost h => { s with allowed_hosts := setRemove h s.allowed_hosts }
  | SubsystemDelta.AddNamespace nsid ns => { s with namespaces := mapInsert nsid ns s.namespaces }
  | SubsystemDelta.UpdateNamespace nsid ns =>
      { s with namespaces := mapInsert nsid ns s.namespaces }
  | SubsystemDelta.RemoveNamespace nsid => { s with namespaces := mapRemove nsid s.namespaces }

def State.applyDelta (st : State) : StateDelta → State
  | StateDelta.AddPort id p => { st with ports := mapInsert id p st.ports }
  | StateDelta.UpdatePort id ds =>
      { st with ports := mapAdjust id (fun p => ds.foldl Port.applyDelta p) st.ports }
  | StateDelta.RemovePort id => { st with ports := mapRemove id st.ports }
  | StateDelta.AddSubsystem nqn sub => { st with subsystems := mapInsert nqn sub st.subsystems }
  | StateDelta.UpdateSubsystem nqn ds =>
      { st with subsystems :=
          mapAdjust nqn (fun s => ds.foldl Subsystem.applyDelta s) st.subsystems }
  | StateDelta.RemoveSubsystem nqn => { st with subsystems := mapRemove nqn st.subsystems }

/-- Apply a delta list in order. -/
def State.applyDeltas (st : State) (ds : List StateDelta) : State :=
  ds.foldl State.applyDelta st

@[simp] theorem mem_setDiff {K : Type} [LinearOrder K] [DecidableEq K] {x : K} {a b : List K} :
    x ∈ setDiff a b ↔ x ∈ a ∧ x ∉ b := by
  simp [setDiff, List.mem_filter]

/-!
### Per-port soundness
-/

theorem port_apply_removes (p : Port) (ks : List NQN) :
    (ks.map PortDelta.RemoveSubsystem).foldl Port.applyDelta p
      = { p with subsystems := ks.foldl (fun s x => setRemove x s) p.subsystems } := by
  induction ks generalizing p with
  | nil => rfl
  | cons x ks ih =>
    rw [List.map_cons, List.foldl_cons, List.foldl_cons, ih]
    rfl

theorem port_apply_adds (p : Port) (ks : List NQN) :
    (ks.map PortDelta.AddSubsystem).foldl Port.applyDelta p
      = { p with subsystems := ks.foldl (fun s x => setInsert x s) p.subsystems } := by
  induction ks generalizing p with
  | nil => rfl
  | cons x ks ih =>
    rw [List.map_cons, List.foldl_cons, List.foldl_cons, ih]
    rfl

/-- Applying `Port::get_deltas(p, q)` to `p` yields `q`. -/
theorem port_apply_get_deltas (p q : Port) (hp : p.WF) (hq : q.WF) :
    (Port.get_deltas p q).foldl Port.applyDelta p = q := by
  have hsubs :
      (setDiff q.subsystems p.subsystems).foldl (fun s x => setInsert x s)
        ((setDiff p.subsystems q.subsystems).foldl (fun s x => setRemove x s) p.subsystems)
      = q.subsystems := by
    refine set_ext (setwf_foldl_setInsert _ (setwf_foldl_setRemove _ hp)) hq ?_
    intro x
    rw [mem_foldl_setInsert, mem_foldl_setRemove]
    simp only [mem_setDiff]
    constructor
    · rintro (⟨hxp, hnd⟩ | ⟨hxq, _⟩)
      · by_contra hxq
        exact hnd ⟨hxp, hxq⟩
      · exact hxq
    · intro hxq
      by_cases hxp : x ∈ p.subsystems
      · exact Or.inl ⟨hxp, fun hc => hc.2 hxq⟩
      · exact Or.inr ⟨hxq, hxp⟩
  rw [Port.get_deltas, List.foldl_append, List.foldl_append, port_apply_removes]
  by_cases ht : p.port_type = q.port_type
  · rw [if_pos ht, List.foldl_nil, port_apply_adds]
    cases q with
    | mk qt qs =>
      simp only [Port.mk.injEq]
      exact ⟨ht, hsubs⟩
  · rw [if_neg ht, List.foldl_cons, List.foldl_nil]
    show ((setDiff q.subsystems p.subsystems).map PortDelta.AddSubsystem).foldl
        Port.applyDelta
        (Port.mk q.port_type
          ((setDiff p.subsystems q.subsystems).foldl (fun s x => setRemove x s)
            p.subsystems)) = q
    rw [port_apply_adds]
    cases q with
    | mk qt qs =>
      simp only [Port.mk.injEq]
      exact ⟨trivial, hsubs⟩

/-!
### Per-subsystem soundness
-/

theorem mem_filter_keys_iff {K V : Type} [LinearOrder K] [DecidableEq K] [DecidableEq V]
    {l : List (K × V)} (hl : MapWF l) (p : K × V → Bool) (k : K) :
    k ∈ (l.filter p).map Prod.fst ↔ ∃ v, lookup l k = some v ∧ p (k, v) = true := by
  rw [List.mem_map]
  constructor
  · rintro ⟨kv, hkv, rfl⟩
    rw [List.mem_filter] at hkv
    exact ⟨kv.2, lookup_eq_some_of_mem hl hkv.1, hkv.2⟩
  · rintro ⟨v, hlk, hp⟩
    exact ⟨(k, v), List.mem_filter.mpr ⟨mem_of_lookup_eq_some hlk, hp⟩, rfl⟩

theorem sub_apply_modelSeg (r : Subsystem) (a b : Option String) (hab : b = none → a = none)
    (hr : r.model = a) :
    (modelDeltas a b).foldl Subsystem.applyDelta r = { r with model := b } := by
  by_cases h : a = b
  · rw [modelDeltas.eq_def, if_neg (fun hn => hn h), List.foldl_nil]
    cases r with
    | mk m sr hosts nss =>
      simp only [Subsystem.mk.injEq]
      refine ⟨?_, trivial, trivial, trivial⟩
      simp only at hr
      rw [hr, h]
  · rw [modelDeltas.eq_def, if_pos h]
    cases b with
    | none => exact absurd (hab rfl) h
    | some m => rfl

theorem sub_apply_serialSeg (r : Subsystem) (a b : Option String) (hab : b = none → a = none)
    (hr : r.serial = a) :
    (serialDeltas a b).foldl Subsystem.applyDelta r = { r with serial := b } := by
  by_cases h : a = b
  · rw [serialDeltas.eq_def, if_neg (fun hn => hn h), List.foldl_nil]
    cases r with
    | mk m sr hosts nss =>
      simp only [Subsystem.mk.injEq]
      refine ⟨trivial, ?_, trivial, trivial⟩
      simp only at hr
      rw [hr, h]
  · rw [serialDeltas.eq_def, if_pos h]
    cases b with
    | none => exact absurd (hab rfl) h
    | some m => rfl

theorem sub_apply_addHosts (r : Subsystem) (ks : List NQN) :
    (ks.map SubsystemDelta.AddHost).foldl Subsystem.applyDelta r
      = { r with allowed_hosts := ks.foldl (fun h x => setInsert x h) r.allowed_hosts } := by
  induction ks generalizing r with
  | nil => rfl
  | cons x ks ih =>
    rw [List.map_cons, List.foldl_cons, List.foldl_cons, ih]
    rfl

theorem sub_apply_removeHosts (r : Subsystem) (ks : List NQN) :
    (ks.map SubsystemDelta.RemoveHost).foldl Subsystem.applyDelta r
      = { r with allowed_hosts := ks.foldl (fun h x => setRemove x h) r.allowed_hosts } := by
  induction ks generalizing r with
  | nil => rfl
  | cons x ks ih =>
    rw [List.map_cons, List.foldl_cons, List.foldl_cons, ih]
    rfl

theorem sub_apply_removeNss (r : Subsystem) (ks : List Nat) :
    (ks.map SubsystemDelta.RemoveNamespace).foldl Subsystem.applyDelta r
      = { r with namespaces := ks.foldl (fun m k => mapRemove k m) r.namespaces } := by
  induction ks generalizing r with
  | nil => rfl
  | cons x ks ih =>
    rw [List.map_cons, List.foldl_cons, List.foldl_cons, ih]
    rfl

theorem sub_apply_updateNss (r : Subsystem) (ks : List Nat) (f : Nat → Namespace) :
    (ks.map (fun k => SubsystemDelta.UpdateNamespace k (f k))).foldl Subsystem.applyDelta r
      = { r with namespaces := ks.foldl (fun m k => mapInsert k (f k) m) r.namespaces } := by
  induction ks generalizing r with
  | nil => rfl
  | cons x ks ih =>
    rw [List.map_cons, List.foldl_cons, List.foldl_cons, ih]
    rfl

theorem sub_apply_addNss (r : Subsystem) (ks : List Nat) (f : Nat → Namespace) :
    (ks.map (fun k => SubsystemDelta.AddNamespace k (f k))).foldl Subsystem.applyDelta r
      = { r with namespaces := ks.foldl (fun m k => mapInsert k (f k) m) r.namespaces } := by
  induction ks generalizing r with
  | nil => rfl
  | cons x ks ih =>
    rw [List.map_cons, List.foldl_cons, List.foldl_cons, ih]
    rfl

/-- Applying `Subsystem::get_deltas(s, t)` to `s` yields `t`, provided
neither the model nor the serial transitions from `Some` to `None`. -/
theorem subsystem_apply_get_deltas (s t : Subsystem) (hs : s.WF) (ht : t.WF)
    (hm : t.model = none → s.model = none) (hsr : t.serial = none → s.serial = none) :
    (Subsystem.get_deltas s t).foldl Subsystem.applyDelta s = t := by
  have hhosts :
      (setDiff s.allowed_hosts t.allowed_hosts).foldl (fun h x => setRemove x h)
        ((setDiff t.allowed_hosts s.allowed_hosts).foldl (fun h x => setInsert x h)
          s.allowed_hosts) = t.allowed_hosts := by
    refine set_ext (setwf_foldl_setRemove _ (setwf_foldl_setInsert _ hs.1)) ht.1 ?_
    intro x
    rw [mem_foldl_setRemove, mem_foldl_setInsert]
    simp only [mem_setDiff]
    constructor
    · rintro ⟨h1 | ⟨h1, h2⟩, h3⟩
      · by_contra hxt
        exact h3 ⟨h1, hxt⟩
      · exact h1
    · intro hxt
      by_cases hxs : x ∈ s.allowed_hosts
      · exact ⟨Or.inl hxs, fun hc => hc.2 hxt⟩
      · exact ⟨Or.inr ⟨hxt, hxs⟩, fun hc => hc.2 hxt⟩
  have hnss :
      ((t.namespaces.filter (fun kv => decide (lookup s.namespaces kv.1 = none))).map
          Prod.fst).foldl
        (fun m k => mapInsert k ((lookup t.namespaces k).getD default) m)
        (((s.namespaces.filter (fun kv =>
            decide (¬lookup t.namespaces kv.1 = none ∧
              ¬lookup t.namespaces kv.1 = some kv.2))).map Prod.fst).foldl
          (fun m k => mapInsert k ((lookup t.namespaces k).getD default) m)
          (((s.namespaces.filter (fun kv =>
              decide (lookup t.namespaces kv.1 = none))).map Prod.fst).foldl
            (fun m k => mapRemove k m) s.namespaces))
      = t.namespaces := by
    refine map_ext
      (mapwf_foldl_mapInsert _ _ (mapwf_foldl_mapInsert _ _ (mapwf_foldl_mapRemove _ hs.2)))
      ht.2 ?_
    intro k
    rw [lookup_foldl_mapInsert, lookup_foldl_mapInsert, lookup_foldl_mapRemove]
    have hrem := mem_filter_keys_iff hs.2
      (fun kv => decide (lookup t.namespaces kv.1 = none)) k
    have hchg := mem_filter_keys_iff hs.2
      (fun kv => decide (¬lookup t.namespaces kv.1 = none ∧
        ¬lookup t.namespaces kv.1 = some kv.2)) k
    have hadd := mem_filter_keys_iff ht.2
      (fun kv => decide (lookup s.namespaces kv.1 = none)) k
    cases hsk : lookup s.namespaces k with
    | none =>
      cases htk : lookup t.namespaces k with
      | none =>
        have h1 : ¬k ∈ (t.namespaces.filter (fun kv =>
            decide (lookup s.namespaces kv.1 = none))).map Prod.fst := by
          rw [hadd]
          rintro ⟨v, hv, _⟩
          rw [htk] at hv
          cases hv
        have h2 : ¬k ∈ (s.namespaces.filter (fun kv =>
            decide (¬lookup t.namespaces kv.1 = none ∧
              ¬lookup t.namespaces kv.1 = some kv.2))).map Prod.fst := by
          rw [hchg]
          rintro ⟨v, hv, _⟩
          rw [hsk] at hv
          cases hv
        have h3 : ¬k ∈ (s.namespaces.filter (fun kv =>
            decide (lookup t.namespaces kv.1 = none))).map Prod.fst := by
          rw [hrem]
          rintro ⟨v, hv, _⟩
          rw [hsk] at hv
          cases hv
        rw [if_neg h1, if_neg h2, if_neg h3]
      | some w =>
        have h1 : k ∈ (t.namespaces.filter (fun kv =>
            decide (lookup s.namespaces kv.1 = none))).map Prod.fst :=
          hadd.mpr ⟨w, htk, by simp [hsk]⟩
        rw [if_pos h1]
        rfl
    | some v =>
      cases htk : lookup t.namespaces k with
      | none =>
        have h1 : ¬k ∈ (t.namespaces.filter (fun kv =>
            decide (lookup s.namespaces kv.1 = none))).map Prod.fst := by
          rw [hadd]
          rintro ⟨w', hw', _⟩
          rw [htk] at hw'
          cases hw'
        have h2 : ¬k ∈ (s.namespaces.filter (fun kv =>
            decide (¬lookup t.namespaces kv.1 = none ∧
              ¬lookup t.namespaces kv.1 = some kv.2))).map Prod.fst := by
          rw [hchg]
          rintro ⟨v', hv', hcond⟩
          simp [htk] at hcond
        have h3 : k ∈ (s.namespaces.filter (fun kv =>
            decide (lookup t.namespaces kv.1 = none))).map Prod.fst :=
          hrem.mpr ⟨v, hsk, by simp [htk]⟩
        rw [if_neg h1, if_neg h2, if_pos h3]
      | some w =>
        have h1 : ¬k ∈ (t.namespaces.filter (fun kv =>
            decide (lookup s.namespaces kv.1 = none))).map Prod.fst := by
          rw [hadd]
          rintro ⟨w', hw', hd⟩
          simp [hsk] at hd
        by_cases hvw : w = v
        · subst hvw
          have h2 : ¬k ∈ (s.namespaces.filter (fun kv =>
              decide (¬lookup t.namespaces kv.1 = none ∧
                ¬lookup t.namespaces kv.1 = some kv.2))).map Prod.fst := by
            rw [hchg]
            rintro ⟨v', hv', hcond⟩
            rw [hsk] at hv'
            obtain rfl := Option.some.inj hv'
            simp [htk] at hcond
          have h3 : ¬k ∈ (s.namespaces.filter (fun kv =>
              decide (lookup t.namespaces kv.1 = none))).map Prod.fst := by
            rw [hrem]
            rintro ⟨v', hv', hd⟩
            rw [hsk] at hv'
            obtain rfl := Option.some.inj hv'
            simp [htk] at hd
          rw [if_neg h1, if_neg h2, if_neg h3]
        · have h2 : k ∈ (s.namespaces.filter (fun kv =>
              decide (¬lookup t.namespaces kv.1 = none ∧
                ¬lookup t.namespaces kv.1 = some kv.2))).map Prod.fst := by
            refine hchg.mpr ⟨v, hsk, ?_⟩
            simp [htk]
            exact hvw
          rw [if_neg h1, if_pos h2]
          rfl
  simp only [Subsystem.get_deltas]
  rw [diff_removed_eq _ _ hs.2, diff_changed_eq _ _ hs.2, diff_added_eq _ _ ht.2]
  rw [List.foldl_append, List.foldl_append, List.foldl_append, List.foldl_append,
    List.foldl_append, List.foldl_append]
  rw [sub_apply_modelSeg s s.model t.model hm rfl]
  rw [sub_apply_serialSeg { s with model := t.model } s.serial t.serial hsr rfl]
  rw [sub_apply_addHosts, sub_apply_removeNss, sub_apply_updateNss, sub_apply_addNss,
    sub_apply_removeHosts]
  cases t with
  | mk tm tsr thosts tnss =>
    simp only [Subsystem.mk.injEq]
    exact ⟨trivial, trivial, hhosts, hnss⟩

/-!
### Top-level soundness
-/

theorem state_apply_removePorts (st : State) (ks : List Nat) :
    (ks.map StateDelta.RemovePort).foldl State.applyDelta st
      = { st with ports := ks.foldl (fun m k => mapRemove k m) st.ports } := by
  induction ks generalizing st with
  | nil => rfl
  | cons x ks ih =>
    rw [List.map_cons, List.foldl_cons, List.foldl_cons, ih]
    rfl

theorem state_apply_removeSubs (st : State) (ks : List NQN) :
    (ks.map StateDelta.RemoveSubsystem).foldl State.applyDelta st
      = { st with subsystems := ks.foldl (fun m k => mapRemove k m) st.subsystems } := by
  induction ks generalizing st with
  | nil => rfl
  | cons x ks ih =>
    rw [List.map_cons, List.foldl_cons, List.foldl_cons, ih]
    rfl

theorem state_apply_updateSubs (st : State) (ks : List NQN)
    (g : NQN → List SubsystemDelta) :
    (ks.map (fun k => StateDelta.UpdateSubsystem k (g k))).foldl State.applyDelta st
      = { st with subsystems := ks.foldl (fun m k =>
          mapAdjust k (fun s => (g k).foldl Subsystem.applyDelta s) m) st.subsystems } := by
  induction ks generalizing st with
  | nil => rfl
  | cons x ks ih =>
    rw [List.map_cons, List.foldl_cons, List.foldl_cons, ih]
    rfl

theorem state_apply_addSubs (st : State) (ks : List NQN) (f : NQN → Subsystem) :
    (ks.map (fun k => StateDelta.AddSubsystem k (f k))).foldl State.applyDelta st
      = { st with subsystems := ks.foldl (fun m k => mapInsert k (f k) m) st.subsystems } := by
  induction ks generalizing st with
  | nil => rfl
  | cons x ks ih =>
    rw [List.map_cons, List.foldl_cons, List.foldl_cons, ih]
    rfl

theorem state_apply_updatePorts (st : State) (ks : List Nat)
    (g : Nat → List PortDelta) :
    (ks.map (fun k => StateDelta.UpdatePort k (g k))).foldl State.applyDelta st
      = { st with ports := ks.foldl (fun m k =>
          mapAdjust k (fun p => (g k).foldl Port.applyDelta p) m) st.ports } := by
  induction ks generalizing st with
  | nil => rfl
  | cons x ks ih =>
    rw [List.map_cons, List.foldl_cons, List.foldl_cons, ih]
    rfl

theorem state_apply_addPorts (st : State) (ks : List Nat) (f : Nat → Port) :
    (ks.map (fun k => StateDelta.AddPort k (f k))).foldl State.applyDelta st
      = { st with ports := ks.foldl (fun m k => mapInsert k (f k) m) st.ports } := by
  induction ks generalizing st with
  | nil => rfl
  | cons x ks ih =>
    rw [List.map_cons, List.foldl_cons, List.foldl_cons, ih]
    rfl

/-- Applying `State::get_deltas(B, D)` to `B` under the pure apply model
yields `D`, provided no subsystem present in both states transitions its
model or serial from `Some` to `None`. -/
theorem state_apply_get_deltas (B D : State) (hB : B.WF) (hD : D.WF)
    (hms : ∀ k sb sd, lookup B.subsystems k = some sb → lookup D.subsystems k = some sd →
      (sd.model = none → sb.model = none) ∧ (sd.serial = none → sb.serial = none)) :
    B.applyDeltas (B.get_deltas D) = D := by
  obtain ⟨hBs, hBp, hBsw, hBpw⟩ := hB
  obtain ⟨hDs, hDp, hDsw, hDpw⟩ := hD
  have hsubs :
      ((D.subsystems.filter (fun kv => decide (lookup B.subsystems kv.1 = none))).map
          Prod.fst).foldl
        (fun m k => mapInsert k ((lookup D.subsystems k).getD default) m)
        (((B.subsystems.filter (fun kv =>
            decide (¬lookup D.subsystems kv.1 = none ∧
              ¬lookup D.subsystems kv.1 = some kv.2))).map Prod.fst).foldl
          (fun m k => mapAdjust k (fun s =>
            (Subsystem.get_deltas ((lookup B.subsystems k).getD default)
              ((lookup D.subsystems k).getD default)).foldl Subsystem.applyDelta s) m)
          (((B.subsystems.filter (fun kv =>
              decide (lookup D.subsystems kv.1 = none))).map Prod.fst).foldl
            (fun m k => mapRemove k m) B.subsystems))
      = D.subsystems := by
    refine map_ext
      (mapwf_foldl_mapInsert _ _ (mapwf_foldl_mapAdjust _ _ (mapwf_foldl_mapRemove _ hBs)))
      hDs ?_
    intro k
    rw [lookup_foldl_mapInsert,
      lookup_foldl_mapAdjust _ _ _ _ (setwf_nodup (setwf_filter_keys _ hBs)),
      lookup_foldl_mapRemove]
    have hrem := mem_filter_keys_iff hBs
      (fun kv => decide (lookup D.subsystems kv.1 = none)) k
    have hchg := mem_filter_keys_iff hBs
      (fun kv => decide (¬lookup D.subsystems kv.1 = none ∧
        ¬lookup D.subsystems kv.1 = some kv.2)) k
    have hadd := mem_filter_keys_iff hDs
      (fun kv => decide (lookup B.subsystems kv.1 = none)) k
    cases hsk : lookup B.subsystems k with
    | none =>
      cases htk : lookup D.subsystems k with
      | none =>
        have h1 : ¬k ∈ (D.subsystems.filter (fun kv =>
            decide (lookup B.subsystems kv.1 = none))).map Prod.fst := by
          rw [hadd]
          rintro ⟨v, hv, _⟩
          rw [htk] at hv
          cases hv
        have h2 : ¬k ∈ (B.subsystems.filter (fun kv =>
            decide (¬lookup D.subsystems kv.1 = none ∧
              ¬lookup D.subsystems kv.1 = some kv.2))).map Prod.fst := by
          rw [hchg]
          rintro ⟨v, hv, _⟩
          rw [hsk] at hv
          cases hv
        have h3 : ¬k ∈ (B.subsystems.filter (fun kv =>
            decide (lookup D.subsystems kv.1 = none))).map Prod.fst := by
          rw [hrem]
          rintro ⟨v, hv, _⟩
          rw [hsk] at hv
          cases hv
        rw [if_neg h1, if_neg h2, if_neg h3]
      | some sd =>
        have h1 : k ∈ (D.subsystems.filter (fun kv =>
            decide (lookup B.subsystems kv.1 = none))).map Prod.fst :=
          hadd.mpr ⟨sd, htk, by simp [hsk]⟩
        rw [if_pos h1]
        rfl
    | some sb =>
      cases htk : lookup D.subsystems k with
      | none =>
        have h1 : ¬k ∈ (D.subsystems.filter (fun kv =>
            decide (lookup B.subsystems kv.1 = none))).map Prod.fst := by
          rw [hadd]
          rintro ⟨w', hw', _⟩
          rw [htk] at hw'
          cases hw'
        have h2 : ¬k ∈ (B.subsystems.filter (fun kv =>
            decide (¬lookup D.subsystems kv.1 = none ∧
              ¬lookup D.subsystems kv.1 = some kv.2))).map Prod.fst := by
          rw [hchg]
          rintro ⟨v', hv', hcond⟩
          simp [htk] at hcond
        have h3 : k ∈ (B.subsystems.filter (fun kv =>
            decide (lookup D.subsystems kv.1 = none))).map Prod.fst :=
          hrem.mpr ⟨sb, hsk, by simp [htk]⟩
        rw [if_neg h1, if_neg h2, if_pos h3]
      | some sd =>
        have h1 : ¬k ∈ (D.subsystems.filter (fun kv =>
            decide (lookup B.subsystems kv.1 = none))).map Prod.fst := by
          rw [hadd]
          rintro ⟨w', hw', hd⟩
          simp [hsk] at hd
        have hsbwf : sb.WF := hBsw (k, sb) (mem_of_lookup_eq_some hsk)
        have hsdwf : sd.WF := hDsw (k, sd) (mem_of_lookup_eq_some htk)
        have hmsk := hms k sb sd hsk htk
        by_cases hvw : sd = sb
        · subst hvw
          have h2 : ¬k ∈ (B.subsystems.filter (fun kv =>
              decide (¬lookup D.subsystems kv.1 = none ∧
                ¬lookup D.subsystems kv.1 = some kv.2))).map Prod.fst := by
            rw [hchg]
            rintro ⟨v', hv', hcond⟩
            rw [hsk] at hv'
            obtain rfl := Option.some.inj hv'
            simp [htk] at hcond
          have h3 : ¬k ∈ (B.subsystems.filter (fun kv =>
              decide (lookup D.subsystems kv.1 = none))).map Prod.fst := by
            rw [hrem]
            rintro ⟨v', hv', hd⟩
            rw [hsk] at hv'
            obtain rfl := Option.some.inj hv'
            simp [htk] at hd
          rw [if_neg h1, if_neg h2, if_neg h3]
        · have h2 : k ∈ (B.subsystems.filter (fun kv =>
              decide (¬lookup D.subsystems kv.1 = none ∧
                ¬lookup D.subsystems kv.1 = some kv.2))).map Prod.fst := by
            refine hchg.mpr ⟨sb, hsk, ?_⟩
            simp [htk]
            exact hvw
          have h3 : ¬k ∈ (B.subsystems.filter (fun kv =>
              decide (lookup D.subsystems kv.1 = none))).map Prod.fst := by
            rw [hrem]
            rintro ⟨v', hv', hd⟩
            rw [hsk] at hv'
            obtain rfl := Option.some.inj hv'
            simp [htk] at hd
          rw [if_neg h1, if_pos h2, if_neg h3]
          simp only [Option.map_some', Option.getD_some]
          rw [subsystem_apply_get_deltas sb sd hsbwf hsdwf hmsk.1 hmsk.2]
  have hports :
      ((D.ports.filter (fun kv => decide (lookup B.ports kv.1 = none))).map
          Prod.fst).foldl
        (fun m k => mapInsert k ((lookup D.ports k).getD default) m)
        (((B.ports.filter (fun kv =>
            decide (¬lookup D.ports kv.1 = none ∧
              ¬lookup D.ports kv.1 = some kv.2))).map Prod.fst).foldl
          (fun m k => mapAdjust k (fun p =>
            (Port.get_deltas ((lookup B.ports k).getD default)
              ((lookup D.ports k).getD default)).foldl Port.applyDelta p) m)
          (((B.ports.filter (fun kv =>
              decide (lookup D.ports kv.1 = none))).map Prod.fst).foldl
            (fun m k => mapRemove k m) B.ports))
      = D.ports := by
    refine map_ext
      (mapwf_foldl_mapInsert _ _ (mapwf_foldl_mapAdjust _ _ (mapwf_foldl_mapRemove _ hBp)))
      hDp ?_
    intro k
    rw [lookup_foldl_mapInsert,
      lookup_foldl_mapAdjust _ _ _ _ (setwf_nodup (setwf_filter_keys _ hBp)),
      lookup_foldl_mapRemove]
    have hrem := mem_filter_keys_iff hBp
      (fun kv => decide (lookup D.ports kv.1 = none)) k
    have hchg := mem_filter_keys_iff hBp
      (fun kv => decide (¬lookup D.ports kv.1 = none ∧
        ¬lookup D.ports kv.1 = some kv.2)) k
    have hadd := mem_filter_keys_iff hDp
      (fun kv => decide (lookup B.ports kv.1 = none)) k
    cases hsk : lookup B.ports k with
    | none =>
      cases htk : lookup D.ports k with
      | none =>
        have h1 : ¬k ∈ (D.ports.filter (fun kv =>
            decide (lookup B.ports kv.1 = none))).map Prod.fst := by
          rw [hadd]
          rintro ⟨v, hv, _⟩
          rw [htk] at hv
          cases hv
        have h2 : ¬k ∈ (B.ports.filter (fun kv =>
            decide (¬lookup D.ports kv.1 = none ∧
              ¬lookup D.ports kv.1 = some kv.2))).map Prod.fst := by
          rw [hchg]
          rintro ⟨v, hv, _⟩
          rw [hsk] at hv
          cases hv
        have h3 : ¬k ∈ (B.ports.filter (fun kv =>
            decide (lookup D.ports kv.1 = none))).map Prod.fst := by
          rw [hrem]
          rintro ⟨v, hv, _⟩
          rw [hsk] at hv
          cases hv
        rw [if_neg h1, if_neg h2, if_neg h3]
      | some pd =>
        have h1 : k ∈ (D.ports.filter (fun kv =>
            decide (lookup B.ports kv.1 = none))).map Prod.fst :=
          hadd.mpr ⟨pd, htk, by simp [hsk]⟩
        rw [if_pos h1]
        rfl
    | some pb =>
      cases htk : lookup D.ports k with
      | none =>
        have h1 : ¬k ∈ (D.ports.filter (fun kv =>
            decide (lookup B.ports kv.1 = none))).map Prod.fst := by
          rw [hadd]
          rintro ⟨w', hw', _⟩
          rw [htk] at hw'
          cases hw'
        have h2 : ¬k ∈ (B.ports.filter (fun kv =>
            decide (¬lookup D.ports kv.1 = none ∧
              ¬lookup D.ports kv.1 = some kv.2))).map Prod.fst := by
          rw [hchg]
          rintro ⟨v', hv', hcond⟩
          simp [htk] at hcond
        have h3 : k ∈ (B.ports.filter (fun kv =>
            decide (lookup D.ports kv.1 = none))).map Prod.fst :=
          hrem.mpr ⟨pb, hsk, by simp [htk]⟩
        rw [if_neg h1, if_neg h2, if_pos h3]
      | some pd =>
        have h1 : ¬k ∈ (D.ports.filter (fun kv =>
            decide (lookup B.ports kv.1 = none))).map Prod.fst := by
          rw [hadd]
          rintro ⟨w', hw', hd⟩
          simp [hsk] at hd
        have hpbwf : pb.WF := hBpw (k, pb) (mem_of_lookup_eq_some hsk)
        have hpdwf : pd.WF := hDpw (k, pd) (mem_of_lookup_eq_some htk)
        by_cases hvw : pd = pb
        · subst hvw
          have h2 : ¬k ∈ (B.ports.filter (fun kv =>
              decide (¬lookup D.ports kv.1 = none ∧
                ¬lookup D.ports kv.1 = some kv.2))).map Prod.fst := by
            rw [hchg]
            rintro ⟨v', hv', hcond⟩
            rw [hsk] at hv'
            obtain rfl := Option.some.inj hv'
            simp [htk] at hcond
          have h3 : ¬k ∈ (B.ports.filter (fun kv =>
              decide (lookup D.ports kv.1 = none))).map Prod.fst := by
            rw [hrem]
            rintro ⟨v', hv', hd⟩
            rw [hsk] at hv'
            obtain rfl := Option.some.inj hv'
            simp [htk] at hd
          rw [if_neg h1, if_neg h2, if_neg h3]
        · have h2 : k ∈ (B.ports.filter (fun kv =>
              decide (¬lookup D.ports kv.1 = none ∧
                ¬lookup D.ports kv.1 = some kv.2))).map Prod.fst := by
            refine hchg.mpr ⟨pb, hsk, ?_⟩
            simp [htk]
            exact hvw
          have h3 : ¬k ∈ (B.ports.filter (fun kv =>
              decide (lookup D.ports kv.1 = none))).map Prod.fst := by
            rw [hrem]
            rintro ⟨v', hv', hd⟩
            rw [hsk] at hv'
            obtain rfl := Option.some.inj hv'
            simp [htk] at hd
          rw [if_neg h1, if_pos h2, if_neg h3]
          simp only [Option.map_some', Option.getD_some]
          rw [port_apply_get_deltas pb pd hpbwf hpdwf]
  rw [State.applyDeltas]
  simp only [State.get_deltas]
  rw [diff_removed_eq _ _ hBp, diff_removed_eq _ _ hBs, diff_changed_eq _ _ hBs,
    diff_added_eq _ _ hDs, diff_changed_eq _ _ hBp, diff_added_eq _ _ hDp]
  rw [List.foldl_append, List.foldl_append, List.foldl_append, List.foldl_append,
    List.foldl_append]
  rw [state_apply_removePorts, state_apply_removeSubs, state_apply_updateSubs,
    state_apply_addSubs, state_apply_updatePorts, state_apply_addPorts]
  cases D with
  | mk Ds Dp =>
    simp only [State.mk.injEq]
    exact ⟨hsubs, hports⟩

/-!
## Example states used by witnesses and counterexamples
-/

def cexBase : State :=
  { subsystems := [("nqn.a".toList,
      { model := some "m", serial := none, allowed_hosts := [], namespaces := [] })],
    ports := [] }

def cexDesired : State :=
  { subsystems := [("nqn.a".toList,
      { model := none, serial := none, allowed_hosts := [], namespaces := [] })],
    ports := [] }

def exNs1 : Namespace :=
  { enabled := true, device_path := "/dev/sda", device_uuid := none, device_nguid := none }

def exNs2 : Namespace :=
  { enabled := false, device_path := "/dev/sdb", device_uuid := none, device_nguid := none }

def exNs3 : Namespace :=
  { enabled := true, device_path := "/dev/sdc", device_uuid := some ⟨77⟩, device_nguid := none }

def exSubA : Subsystem :=
  { model := some "m", serial := some "123", allowed_hosts := ["nqn.host1".toList],
    namespaces := [(1, exNs1)] }

def exSubA2 : Subsystem :=
  { model := some "m2", serial := some "123", allowed_hosts := [],
    namespaces := [(1, exNs2), (2, exNs3)] }

def exSubB : Subsystem :=
  { model := none, serial := none, allowed_hosts := ["nqn.host2".toList], namespaces := [] }

def exPortLoop : Port := { port_type := PortType.Loop, subsystems := [] }

def exPortTcp : Port :=
  { port_type := PortType.Tcp { isV6 := false, ip := "127.0.0.1", port := 4420 },
    subsystems := ["nqn.2023-11.sh.tty:a".toList] }

def exB1 : State :=
  { subsystems := [("nqn.2023-11.sh.tty:a".toList, exSubA)], ports := [(1, exPortLoop)] }

def exD1 : State :=
  { subsystems := [("nqn.2023-11.sh.tty:a".toList, exSubA2),
      ("nqn.2023-11.sh.tty:b".toList, exSubB)],
    ports := [(2, exPortTcp)] }

/-!
## Claim C1: delta soundness
-/

/-- C1 counterexample: for `B` holding one subsystem with `model = Some "m"`
and `D` the same subsystem with `model = None`, the produced delta list is
`[UpdateSubsystem "nqn.a" []]`, whose application leaves `B` unchanged, so
the result differs from `D`: the claim fails as universally stated. -/
theorem delta_soundness_cex :
    ¬(cexBase.applyDeltas (cexBase.get_deltas cexDesired) = cexDesired) := by decide

/-- C1 (amended): for every well-formed base state `B` and desired state `D`
such that no subsystem present in both transitions its model or serial from
`Some` to `None`, applying the list `State::get_deltas(B, D)` in order to a
copy of `B` under the pure in-memory apply model of the `StateDelta`
semantics yields a state equal to `D`. -/
theorem delta_soundness_amended (B D : State) (hB : B.WF) (hD : D.WF)
    (hms : ∀ kv ∈ B.subsystems, ∀ kv2 ∈ D.subsystems, kv.1 = kv2.1 →
      (kv2.2.model = none → kv.2.model = none) ∧ (kv2.2.serial = none → kv.2.serial = none)) :
    B.applyDeltas (B.get_deltas D) = D := by
  refine state_apply_get_deltas B D hB hD ?_
  intro k sb sd hsb hsd
  exact hms (k, sb) (mem_of_lookup_eq_some hsb) (k, sd) (mem_of_lookup_eq_some hsd) rfl

/-- C1 witness: the amended soundness theorem applied to a concrete pair of
states exercising port addition/removal, subsystem update and addition,
host changes, and namespace add/update. -/
theorem delta_soundness_witness :
    exB1.WF ∧ exD1.WF ∧ exB1.applyDeltas (exB1.get_deltas exD1) = exD1 :=
  ⟨by decide, by decide,
    delta_soundness_amended exB1 exD1 (by decide) (by decide) (by decide)⟩

/-!
## Claim C5: top-level delta ordering
-/

/-- C5: for every well-formed base `B` and desired `D`, the list
`State::get_deltas(B, D)` is exactly the concatenation of the six groups
`RemovePort`, `RemoveSubsystem`, `UpdateSubsystem`, `AddSubsystem`,
`UpdatePort`, `AddPort`, in this order, each group iterating the
corresponding key sets in ascending order (the order of the sorted maps). -/
theorem top_level_delta_ordering (B D : State) (hB : B.WF) (hD : D.WF) :
    B.get_deltas D = specTopLevelDeltas B D :=
  get_deltas_eq_spec B D hB hD

/-- C5 witness: the ordering theorem applied to a concrete pair of states
exercising all six groups. -/
theorem top_level_delta_ordering_witness :
    exB1.WF ∧ exD1.WF ∧ exB1.get_deltas exD1 = specTopLevelDeltas exB1 exD1 :=
  ⟨by decide, by decide, top_level_delta_ordering exB1 exD1 (by decide) (by decide)⟩

/-!
## Claim C2: empty sub-delta lists at the top level
-/

/-- Two differing well-formed ports always produce a non-empty delta list:
a type change emits `UpdatePortType`, a subsystem-set change emits at least
one `AddSubsystem`/`RemoveSubsystem`. -/
theorem port_get_deltas_ne_nil (pb pd : Port) (h1 : pb.WF) (h2 : pd.WF) (hne : pb ≠ pd) :
    Port.get_deltas pb pd ≠ [] := by
  intro h
  rw [Port.get_deltas] at h
  rcases List.append_eq_nil.mp h with ⟨h12, hadds⟩
  rcases List.append_eq_nil.mp h12 with ⟨hrems, hmid⟩
  by_cases ht : pb.port_type = pd.port_type
  · rw [List.map_eq_nil] at hrems hadds
    have hsubs : pb.subsystems = pd.subsystems := by
      refine set_ext h1 h2 ?_
      intro x
      constructor
      · intro hx
        by_contra hxd
        have : x ∈ setDiff pb.subsystems pd.subsystems := mem_setDiff.mpr ⟨hx, hxd⟩
        rw [hrems] at this
        exact List.not_mem_nil x this
      · intro hx
        by_contra hxb
        have : x ∈ setDiff pd.subsystems pb.subsystems := mem_setDiff.mpr ⟨hx, hxb⟩
        rw [hadds] at this
        exact List.not_mem_nil x this
    apply hne
    cases pb with
    | mk bt bs =>
      cases pd with
      | mk dt ds =>
        simp only at ht hsubs
        rw [ht, hsubs]
  · rw [if_neg ht] at hmid
    cases hmid

/-- If `Subsystem::get_deltas(sb, sd)` is empty then the two subsystems can
only differ in a model or serial transition to `None`: hosts and namespaces
agree, and each of model/serial either agrees or is `None` in `sd`. -/
theorem sub_get_deltas_nil (sb sd : Subsystem) (h1 : sb.WF) (h2 : sd.WF)
    (h : Subsystem.get_deltas sb sd = []) :
    sb.allowed_hosts = sd.allowed_hosts ∧ sb.namespaces = sd.namespaces ∧
      (sb.model = sd.model ∨ sd.model = none) ∧
      (sb.serial = sd.serial ∨ sd.serial = none) := by
  simp only [Subsystem.get_deltas] at h
  rw [diff_removed_eq _ _ h1.2, diff_changed_eq _ _ h1.2, diff_added_eq _ _ h2.2] at h
  rcases List.append_eq_nil.mp h with ⟨h16, hrh⟩
  rcases List.append_eq_nil.mp h16 with ⟨h15, han⟩
  rcases List.append_eq_nil.mp h15 with ⟨h14, hun⟩
  rcases List.append_eq_nil.mp h14 with ⟨h13, hrn⟩
  rcases List.append_eq_nil.mp h13 with ⟨h12, hah⟩
  rcases List.append_eq_nil.mp h12 with ⟨hm, hsr⟩
  refine ⟨?_, ?_, ?_, ?_⟩
  · rw [List.map_eq_nil] at hah hrh
    refine set_ext h1.1 h2.1 ?_
    intro x
    constructor
    · intro hx
      by_contra hxd
      have hmem : x ∈ setDiff sb.allowed_hosts sd.allowed_hosts := mem_setDiff.mpr ⟨hx, hxd⟩
      rw [hrh] at hmem
      exact List.not_mem_nil x hmem
    · intro hx
      by_contra hxb
      have hmem : x ∈ setDiff sd.allowed_hosts sb.allowed_hosts := mem_setDiff.mpr ⟨hx, hxb⟩
      rw [hah] at hmem
      exact List.not_mem_nil x hmem
  · rw [List.map_eq_nil, List.map_eq_nil] at hrn hun han
    refine map_ext h1.2 h2.2 ?_
    intro k
    cases hsk : lookup sb.namespaces k with
    | none =>
      cases htk : lookup sd.namespaces k with
      | none => rfl
      | some w =>
        have hmem := mem_of_lookup_eq_some htk
        have hna := List.filter_eq_nil.mp han _ hmem
        simp only [decide_eq_true_eq] at hna
        exact absurd hsk hna
    | some v =>
      have hmem := mem_of_lookup_eq_some hsk
      have hnr := List.filter_eq_nil.mp hrn _ hmem
      have hnc := List.filter_eq_nil.mp hun _ hmem
      simp only [decide_eq_true_eq] at hnr hnc
      push_neg at hnc
      cases htk : lookup sd.namespaces k with
      | none => exact absurd htk hnr
      | some w =>
        have hB : lookup sd.namespaces k = some v :=
          hnc (by rw [htk]; exact fun hq => Option.noConfusion hq)
        rw [hB] at htk
        exact htk
  · by_cases he : sb.model = sd.model
    · exact Or.inl he
    · rw [modelDeltas.eq_def, if_pos he] at hm
      cases hd : sd.model with
      | none => exact Or.inr rfl
      | some m =>
        rw [hd] at hm
        exact absurd hm (by simp)
  · by_cases he : sb.serial = sd.serial
    · exact Or.inl he
    · rw [serialDeltas.eq_def, if_pos he] at hsr
      cases hd : sd.serial with
      | none => exact Or.inr rfl
      | some m =>
        rw [hd] at hsr
        exact absurd hsr (by simp)

/-- `UpdateSubsystem nqn l` appears in the top-level delta list exactly for
the NQNs present in both states with differing values, and `l` is then the
per-subsystem diff of the two values. -/
theorem mem_get_deltas_updateSub_iff (B D : State) (hB : B.WF) (hD : D.WF)
    (nqn : NQN) (l : List SubsystemDelta) :
    StateDelta.UpdateSubsystem nqn l ∈ B.get_deltas D ↔
      ∃ sb sd, lookup B.subsystems nqn = some sb ∧ lookup D.subsystems nqn = some sd ∧
        sb ≠ sd ∧ l = Subsystem.get_deltas sb sd := by
  rw [get_deltas_eq_spec B D hB hD, specTopLevelDeltas]
  simp only [List.mem_append, List.mem_map]
  constructor
  · rintro (((((⟨kv, _, heq⟩ | ⟨kv, _, heq⟩) | ⟨kv, hkv, heq⟩) | ⟨kv, _, heq⟩) |
      ⟨kv, _, heq⟩) | ⟨kv, _, heq⟩)
    · exact StateDelta.noConfusion heq
    · exact StateDelta.noConfusion heq
    · rw [List.mem_filter] at hkv
      obtain ⟨hmem, hcond⟩ := hkv
      rw [decide_eq_true_eq] at hcond
      obtain ⟨hk, hl⟩ := StateDelta.UpdateSubsystem.inj heq
      subst hk
      cases hd : lookup D.subsystems kv.1 with
      | none => exact absurd hd hcond.1
      | some sd =>
        refine ⟨kv.2, sd, lookup_eq_some_of_mem hB.1 hmem, rfl, ?_, ?_⟩
        · intro he
          exact hcond.2 (by rw [hd, he])
        · rw [hd] at hl
          exact hl.symm
    · exact StateDelta.noConfusion heq
    · exact StateDelta.noConfusion heq
    · exact StateDelta.noConfusion heq
  · rintro ⟨sb, sd, hsb, hsd, hne, rfl⟩
    refine Or.inl (Or.inl (Or.inl (Or.inr ⟨(nqn, sb), ?_, ?_⟩)))
    · rw [List.mem_filter]
      refine ⟨mem_of_lookup_eq_some hsb, ?_⟩
      rw [decide_eq_true_eq]
      constructor
      · rw [hsd]
        exact fun hq => Option.noConfusion hq
      · rw [hsd]
        intro he
        exact hne (Option.some.inj he).symm
    · rw [hsd]
      rfl

/-- `UpdatePort id l` appears in the top-level delta list only for ids
present in both states with differing port values, and `l` is then the
per-port diff of the two values. -/
theorem mem_get_deltas_updatePort (B D : State) (hB : B.WF) (hD : D.WF)
    (id : Nat) (l : List PortDelta)
    (hmem : StateDelta.UpdatePort id l ∈ B.get_deltas D) :
    ∃ pb pd, lookup B.ports id = some pb ∧ lookup D.ports id = some pd ∧
      pb ≠ pd ∧ l = Port.get_deltas pb pd := by
  rw [get_deltas_eq_spec B D hB hD, specTopLevelDeltas] at hmem
  simp only [List.mem_append, List.mem_map] at hmem
  rcases hmem with (((((⟨kv, _, heq⟩ | ⟨kv, _, heq⟩) | ⟨kv, _, heq⟩) | ⟨kv, _, heq⟩) |
    ⟨kv, hkv, heq⟩) | ⟨kv, _, heq⟩)
  · exact StateDelta.noConfusion heq
  · exact StateDelta.noConfusion heq
  · exact StateDelta.noConfusion heq
  · exact StateDelta.noConfusion heq
  · rw [List.mem_filter] at hkv
    obtain ⟨hmem2, hcond⟩ := hkv
    rw [decide_eq_true_eq] at hcond
    obtain ⟨hk, hl⟩ := StateDelta.UpdatePort.inj heq
    subst hk
    cases hd : lookup D.ports kv.1 with
    | none => exact absurd hd hcond.1
    | some pd =>
      refine ⟨kv.2, pd, lookup_eq_some_of_mem hB.2.1 hmem2, rfl, ?_, ?_⟩
      · intro he
        exact hcond.2 (by rw [hd, he])
      · rw [hd] at hl
        exact hl.symm
  · exact StateDelta.noConfusion heq

/-- C2 counterexample: the delta list for the model-to-`None` transition
contains `UpdateSubsystem "nqn.a" []` — an `UpdateSubsystem` with an empty
sub-delta list appears at the top level, contradicting the claim. -/
theorem empty_update_cex :
    StateDelta.UpdateSubsystem ("nqn.a".toList) [] ∈ cexBase.get_deltas cexDesired := by
  decide

/-- C2 (amended): for every well-formed base `B` and desired `D`, the
top-level delta list never contains an `UpdatePort` with an empty sub-delta
list; it contains `UpdateSubsystem nqn []` exactly for the NQNs present in
both states whose subsystem values differ but whose per-entity diff emits
no sub-delta — which happens exactly when the two values agree on hosts and
namespaces and differ only in model and/or serial transitioning to `None`. -/
theorem empty_update_amended (B D : State) (hB : B.WF) (hD : D.WF) :
    (∀ id l, StateDelta.UpdatePort id l ∈ B.get_deltas D → l ≠ []) ∧
    (∀ nqn, StateDelta.UpdateSubsystem nqn [] ∈ B.get_deltas D ↔
      ∃ sb sd, lookup B.subsystems nqn = some sb ∧ lookup D.subsystems nqn = some sd ∧
        sb ≠ sd ∧ Subsystem.get_deltas sb sd = []) ∧
    (∀ sb sd : Subsystem, sb.WF → sd.WF → Subsystem.get_deltas sb sd = [] →
      sb.allowed_hosts = sd.allowed_hosts ∧ sb.namespaces = sd.namespaces ∧
        (sb.model = sd.model ∨ sd.model = none) ∧
        (sb.serial = sd.serial ∨ sd.serial = none)) := by
  refine ⟨?_, ?_, ?_⟩
  · intro id l hmem hnil
    obtain ⟨pb, pd, hpb, hpd, hne, hl⟩ := mem_get_deltas_updatePort B D hB hD id l hmem
    have hwfb : pb.WF := hB.2.2.2 (id, pb) (mem_of_lookup_eq_some hpb)
    have hwfd : pd.WF := hD.2.2.2 (id, pd) (mem_of_lookup_eq_some hpd)
    exact port_get_deltas_ne_nil pb pd hwfb hwfd hne (hnil ▸ hl.symm)
  · intro nqn
    rw [mem_get_deltas_updateSub_iff B D hB hD]
    constructor
    · rintro ⟨sb, sd, hsb, hsd, hne, hl⟩
      exact ⟨sb, sd, hsb, hsd, hne, hl.symm⟩
    · rintro ⟨sb, sd, hsb, hsd, hne, hl⟩
      exact ⟨sb, sd, hsb, hsd, hne, hl.symm⟩
  · intro sb sd hwb hwd hnil
    exact sub_get_deltas_nil sb sd hwb hwd hnil

/-- C2 witness: the amended characterization applied to a concrete pair of
states. -/
theorem empty_update_witness :
    cexBase.WF ∧ cexDesired.WF ∧
      ((∀ id l, StateDelta.UpdatePort id l ∈ cexBase.get_deltas cexDesired → l ≠ []) ∧
      (∀ nqn, StateDelta.UpdateSubsystem nqn [] ∈ cexBase.get_deltas cexDesired ↔
        ∃ sb sd, lookup cexBase.subsystems nqn = some sb ∧
          lookup cexDesired.subsystems nqn = some sd ∧
          sb ≠ sd ∧ Subsystem.get_deltas sb sd = []) ∧
      (∀ sb sd : Subsystem, sb.WF → sd.WF → Subsystem.get_deltas sb sd = [] →
        sb.allowed_hosts = sd.allowed_hosts ∧ sb.namespaces = sd.namespaces ∧
          (sb.model = sd.model ∨ sd.model = none) ∧
          (sb.serial = sd.serial ∨ sd.serial = none))) :=
  ⟨by decide, by decide, empty_update_amended cexBase cexDesired (by decide) (by decide)⟩

/-!
## Validation (`src/helpers/validation.rs`)

NQNs are embedded as `List Char`; the code under scrutiny indexes bytes,
but every byte access happens after the ASCII-only check has passed, where
bytes and characters coincide.
-/

/-- Rust `char::is_ascii`: code point at most U+007F. -/
def is_ascii_char (c : Char) : Bool := c.toNat ≤ 0x7f

/-- Rust `char::is_ascii_control`: U+0000..=U+001F or U+007F. -/
def is_ascii_control (c : Char) : Bool := c.toNat ≤ 0x1f || c.toNat == 0x7f

/-- `is_ascii_only`: the loop returns `false` at the first character that is
neither ASCII nor an ASCII control character. -/
def is_ascii_only (data : List Char) : Bool :=
  data.all (fun c => !(!is_ascii_char c && !is_ascii_control c))

inductive ValidationError where
  | NQNNotAscii (s : List Char)
  | NQNTooLong (s : List Char)
  | NQNMissingNQN (s : List Char)
  | NQNTooShort (s : List Char)
  | NQNUuidInvalid (s : List Char)
  | CantCreateDiscovery
  | NQNInvalidDate (s : List Char)
  | NQNInvalidDomain (s : List Char)
  | NQNInvalidIdentifier (s : List Char)
deriving DecidableEq, Repr

/-- `assert_valid_nqn`: ASCII-only and at most 223 bytes. -/
def assert_valid_nqn (nqn : List Char) : Except ValidationError Unit :=
  if !is_ascii_only nqn then Except.error (ValidationError.NQNNotAscii nqn)
  else if nqn.length > 223 then Except.error (ValidationError.NQNTooLong nqn)
  else Except.ok ()

/-- Digit-string to number, most significant digit first. -/
def digitsToNat (ds : List Char) : Nat :=
  ds.foldl (fun a c => a * 10 + (c.toNat - 48)) 0

/-- Rust `str::parse::<i16>`: optional sign, one or more ASCII digits, and
the value must fit in `i16` (checked arithmetic; out of range is an error). -/
def parse_i16 (s : List Char) : Option Int :=
  let core : List Char → Option Nat := fun ds =>
    if ds.isEmpty then none
    else if ds.all (fun c => c.isDigit) then some (digitsToNat ds) else none
  match s with
  | '+' :: rest => (core rest).bind (fun n => if n ≤ 32767 then some (Int.ofNat n) else none)
  | '-' :: rest => (core rest).bind (fun n => if n ≤ 32768 then some (-(Int.ofNat n)) else none)
  | _ => (core s).bind (fun n => if n ≤ 32767 then some (Int.ofNat n) else none)

/-- Hexadecimal digit, both cases (as accepted by the `uuid` crate). -/
def isHexDigit (c : Char) : Bool :=
  c.isDigit || ('a' ≤ c && c ≤ 'f') || ('A' ≤ c && c ≤ 'F')

/-- The `uuid` crate's hyphenated form: 36 bytes, `-` at offsets
8, 13, 18 and 23, hex digits elsewhere. -/
def isHyphenatedUuid (s : List Char) : Bool :=
  s.length == 36 &&
    (s.enum.all (fun ic =>
      if ic.1 == 8 || ic.1 == 13 || ic.1 == 18 || ic.1 == 23 then ic.2 == '-'
      else isHexDigit ic.2))

/-- `Uuid::try_parse` succeeds: simple (32 hex), hyphenated (36),
braced hyphenated (38), or URN-prefixed hyphenated (45). -/
def uuid_try_parse_ok (s : List Char) : Bool :=
  if s.length == 32 then s.all isHexDigit
  else if s.length == 36 then isHyphenatedUuid s
  else if s.length == 38 then
    s.head? == some '{' && s.getLast? == some '}' && isHyphenatedUuid ((s.drop 1).take 36)
  else if s.length == 45 then
    "urn:uuid:".toList.isPrefixOf s && isHyphenatedUuid (s.drop 9)
  else false

/-- Rust `str::strip_prefix` on character lists. -/
def strip_prefix_chars (p s : List Char) : Option (List Char) :=
  if p.isPrefixOf s then some (s.drop p.length) else none

/-- Rust `str::split_once(":")`: split at the first colon. -/
def split_once_colon : List Char → Option (List Char × List Char)
  | [] => none
  | c :: cs =>
    if c = ':' then some ([], cs)
    else (split_once_colon cs).map (fun p => (c :: p.1, p.2))

/-- Take the half-open byte range `[a, b)` of the string. -/
def sliceChars (l : List Char) (a b : Nat) : List Char := (l.take b).drop a

/-- `assert_compliant_nqn`, translated line by line from
`src/helpers/validation.rs`.  Note the month check parses the single-byte
slice `nqn[9..10]`. -/
def assert_compliant_nqn (nqn : List Char) : Except ValidationError Unit :=
  match assert_valid_nqn nqn with
  | Except.error e => Except.error e
  | Except.ok _ =>
    if !("nqn.".toList.isPrefixOf nqn) then Except.error (ValidationError.NQNMissingNQN nqn)
    else if nqn.length < 15 then Except.error (ValidationError.NQNTooShort nqn)
    else match strip_prefix_chars "nqn.2014-08.org.nvmexpress:uuid:".toList nqn with
    | some uuid =>
      if !uuid_try_parse_ok uuid then Except.error (ValidationError.NQNUuidInvalid uuid)
      else Except.ok ()
    | none =>
      if nqn = "nqn.2014-08.org.nvmexpress.discovery".toList then
        Except.error ValidationError.CantCreateDiscovery
      else
        let has_dots_and_dash :=
          nqn[3]? == some '.' && nqn[8]? == some '-' && nqn[11]? == some '.'
        let valid_date :=
          (parse_i16 (sliceChars nqn 4 8)).isSome && (parse_i16 (sliceChars nqn 9 10)).isSome
        if !has_dots_and_dash || !valid_date then
          Except.error (ValidationError.NQNInvalidDate nqn)
        else match split_once_colon (nqn.drop 12) with
        | some (domain, identifier) =>
          if domain = "org.nvmexpress".toList then
            Except.error (ValidationError.NQNInvalidDomain nqn)
          else if !domain.isEmpty && !identifier.isEmpty then Except.ok ()
          else Except.error (ValidationError.NQNInvalidIdentifier nqn)
        | none => Except.error (ValidationError.NQNInvalidIdentifier nqn)

/-- Modelled from the spec (§3): the compliant-NQN grammar — ASCII, at most
223 bytes, begins with `nqn.`, at least 15 bytes, and either the
`nqn.2014-08.org.nvmexpress:uuid:` prefix followed by a syntactically valid
UUID, or the dated shape with `.`,`-`,`.` at bytes 3, 8 and 11, the 4-digit
year `[4..8)` and the 2-digit month `[9..11)` both parsing as integers, and
a non-empty reverse-domain other than `org.nvmexpress` followed by `:` and
a non-empty identifier. -/
def compliantNqnGrammar (nqn : List Char) : Bool :=
  is_ascii_only nqn && nqn.length ≤ 223 && "nqn.".toList.isPrefixOf nqn &&
    15 ≤ nqn.length &&
    ((match strip_prefix_chars "nqn.2014-08.org.nvmexpress:uuid:".toList nqn with
      | some uuid => uuid_try_parse_ok uuid
      | none => false)
     ||
     (nqn[3]? == some '.' && nqn[8]? == some '-' && nqn[11]? == some '.' &&
      (parse_i16 (sliceChars nqn 4 8)).isSome && (parse_i16 (sliceChars nqn 9 11)).isSome &&
      (match split_once_colon (nqn.drop 12) with
       | some (domain, identifier) =>
         !domain.isEmpty && domain ≠ "org.nvmexpress".toList && !identifier.isEmpty
       | none => false)))

/-!
## Claim C3: compliant-NQN validation
-/

/-- C3: the claimed equivalence between `assert_compliant_nqn` and the §3
grammar fails on `"nqn.2023-1x.dom:id"`.  The grammar requires the 2-digit
month (bytes `[9..11)`, here `"1x"`) to parse as an integer, so it rejects
the string; the code parses only the single byte `nqn[9..10]` (here `"1"`),
an off-by-one slice against its own `nqn.yyyy-mm` format (byte 11 is
checked to be the `.` closing a two-byte month field), and accepts it. -/
theorem nqn_month_divergence :
    (assert_compliant_nqn "nqn.2023-1x.dom:id".toList).isOk = true ∧
      compliantNqnGrammar "nqn.2023-1x.dom:id".toList = false :=
  ⟨by decide, by decide⟩

/-!
## Fibre Channel addresses (`src/state/types.rs`)
-/

/-- Lowercase hexadecimal digit character, as printed by Rust `{:x}`. -/
def hexDigitChar (d : Nat) : Char := if d < 10 then Char.ofNat (48 + d) else Char.ofNat (87 + d)

/-- The `k` hexadecimal digits of `n`, most significant first: the
fixed-width zero-padded rendering used by `{:016x}` (for `n < 16 ^ k`). -/
def hexDigitsRev (n : Nat) : Nat → List Nat
  | 0 => []
  | k + 1 => hexDigitsRev (n / 16) k ++ [n % 16]

def toPaddedHex16 (n : Nat) : List Char := (hexDigitsRev n 16).map hexDigitChar

/-- `FibreChannelAddr::to_traddr`: `format!("nn-{:#018x}:pn-{:#018x}", wwnn, wwpn)`.
`{:#018x}` prints `0x` followed by the value zero-padded to 16 hex digits
(total width 18) for every `u64` value. -/
def to_traddr (a : FibreChannelAddr) : List Char :=
  "nn-0x".toList ++ toPaddedHex16 a.wwnn ++ ":pn-0x".toList ++ toPaddedHex16 a.wwpn

/-- Hexadecimal digit values accepted by `u64::from_str_radix(_, 16)`. -/
def hexCharVal (c : Char) : Option Nat :=
  if c.isDigit then some (c.toNat - 48)
  else if 'a' ≤ c && c ≤ 'f' then some (c.toNat - 87)
  else if 'A' ≤ c && c ≤ 'F' then some (c.toNat - 55)
  else none

/-- The digit-accumulation loop of `from_str_radix`, with the checked
`u64` arithmetic: an accumulator overflowing `u64` is an error. -/
def fromStrRadix16Go : List Char → Nat → Option Nat
  | [], acc => some acc
  | c :: cs, acc =>
    match hexCharVal c with
    | some d => if acc * 16 + d < 2 ^ 64 then fromStrRadix16Go cs (acc * 16 + d) else none
    | none => none

/-- `u64::from_str_radix(s, 16)`: an optional leading `+` (a lone `+` is an
error), then one or more hex digits; any other character (including `-`,
which an unsigned parse treats as a digit) is an error. -/
def from_str_radix_16_u64 (s : List Char) : Option Nat :=
  match s with
  | [] => none
  | c :: rest =>
    if c = '+' then (if rest.isEmpty then none else fromStrRadix16Go rest 0)
    else fromStrRadix16Go (c :: rest) 0

/-- `FibreChannelAddr::from_str`: branch on the byte length (43 for the
`0x`-prefixed form, 39 for the short form), parse the two fixed hex
slices; errors are collapsed to `none`. -/
def fc_from_str (s : List Char) : Option FibreChannelAddr :=
  if s.length = 7 + 4 + 32 then
    match from_str_radix_16_u64 (sliceChars s 5 21),
        from_str_radix_16_u64 (sliceChars s 27 43) with
    | some wwnn, some wwpn => some ⟨wwnn, wwpn⟩
    | _, _ => none
  else if s.length = 7 + 32 then
    match from_str_radix_16_u64 (sliceChars s 3 19),
        from_str_radix_16_u64 (sliceChars s 23 39) with
    | some wwnn, some wwpn => some ⟨wwnn, wwpn⟩
    | _, _ => none
  else none

theorem hexDigitsRev_length (k : Nat) : ∀ n, (hexDigitsRev n k).length = k := by
  induction k with
  | zero => intro n; rfl
  | succ k ih =>
    intro n
    rw [hexDigitsRev, List.length_append, ih]
    simp

theorem hexDigitsRev_lt (k : Nat) : ∀ n, ∀ d ∈ hexDigitsRev n k, d < 16 := by
  induction k with
  | zero => intro n d hd; simp [hexDigitsRev] at hd
  | succ k ih =>
    intro n d hd
    rw [hexDigitsRev] at hd
    rcases List.mem_append.mp hd with h | h
    · exact ih _ _ h
    · rw [List.mem_singleton] at h
      subst h
      exact Nat.mod_lt _ (by norm_num)

theorem hexCharVal_hexDigitChar : ∀ d, d < 16 → hexCharVal (hexDigitChar d) = some d := by
  decide

theorem hexDigitChar_ne_plus : ∀ d, d < 16 → hexDigitChar d ≠ '+' := by
  decide

theorem fromStrRadix16Go_append (l1 l2 : List Char) (acc : Nat) :
    fromStrRadix16Go (l1 ++ l2) acc =
      (fromStrRadix16Go l1 acc).bind (fun a => fromStrRadix16Go l2 a) := by
  induction l1 generalizing acc with
  | nil => rfl
  | cons c cs ih =>
    rw [List.cons_append]
    cases h : hexCharVal c with
    | none => simp [fromStrRadix16Go, h]
    | some d =>
      simp only [fromStrRadix16Go, h]
      by_cases hlt : acc * 16 + d < 2 ^ 64
      · rw [if_pos hlt, if_pos hlt, ih]
      · rw [if_neg hlt, if_neg hlt]
        rfl

theorem fromStrRadix16Go_hexDigits (k : Nat) :
    ∀ n acc, n < 16 ^ k → acc * 16 ^ k + n < 2 ^ 64 →
      fromStrRadix16Go ((hexDigitsRev n k).map hexDigitChar) acc
        = some (acc * 16 ^ k + n) := by
  induction k with
  | zero =>
    intro n acc hn hb
    have hn0 : n = 0 := by omega
    subst hn0
    simp [hexDigitsRev, fromStrRadix16Go]
  | succ k ih =>
    intro n acc hb2 hb
    rw [hexDigitsRev, List.map_append, fromStrRadix16Go_append]
    have hqr : 16 * (n / 16) + n % 16 = n := Nat.div_add_mod n 16
    have hps : (16 : Nat) ^ (k + 1) = 16 ^ k * 16 := by rw [Nat.pow_succ]
    have key : (acc * 16 ^ k + n / 16) * 16 + n % 16
        = acc * (16 ^ k * 16) + (16 * (n / 16) + n % 16) := by ring
    rw [hps] at hb
    have h1 : n / 16 < 16 ^ k := by
      rw [Nat.div_lt_iff_lt_mul (by norm_num : (0:Nat) < 16)]
      rw [hps] at hb2
      exact hb2
    have h2 : acc * 16 ^ k + n / 16 < 2 ^ 64 := by omega
    rw [ih (n / 16) acc h1 h2]
    rw [Option.some_bind]
    simp only [List.map_cons, List.map_nil]
    have hred : fromStrRadix16Go [hexDigitChar (n % 16)] (acc * 16 ^ k + n / 16)
        = (if (acc * 16 ^ k + n / 16) * 16 + n % 16 < 2 ^ 64 then
            some ((acc * 16 ^ k + n / 16) * 16 + n % 16) else none) := by
      simp only [fromStrRadix16Go,
        hexCharVal_hexDigitChar (n % 16) (Nat.mod_lt _ (by norm_num))]
    rw [hred, if_pos (by omega)]
    rw [hps]
    congr 1
    omega

theorem parse_toPaddedHex16 (n : Nat) (h : n < 2 ^ 64) :
    from_str_radix_16_u64 (toPaddedHex16 n) = some n := by
  have h16 : n < 16 ^ 16 := by
    have : (16 : Nat) ^ 16 = 2 ^ 64 := by norm_num
    rw [this]
    exact h
  have hmain := fromStrRadix16Go_hexDigits 16 n 0 h16 (by simpa using h)
  rw [toPaddedHex16]
  obtain ⟨d, ds, hcons⟩ : ∃ d ds, hexDigitsRev n 16 = d :: ds := by
    cases hx : hexDigitsRev n 16 with
    | nil =>
      have := hexDigitsRev_length 16 n
      rw [hx] at this
      cases this
    | cons d ds => exact ⟨d, ds, rfl⟩
  have hd16 : d < 16 := hexDigitsRev_lt 16 n d (by rw [hcons]; exact List.mem_cons_self _ _)
  rw [hcons] at hmain ⊢
  rw [List.map_cons, from_str_radix_16_u64]
  rw [if_neg (hexDigitChar_ne_plus d hd16)]
  rw [← List.map_cons]
  simpa using hmain

theorem sliceChars_middle (p m rest : List Char) :
    sliceChars (p ++ (m ++ rest)) p.length (p.length + m.length) = m := by
  rw [sliceChars, ← List.append_assoc]
  rw [show p.length + m.length = (p ++ m).length from (List.length_append p m).symm]
  rw [List.take_left, List.drop_left]

/-!
## Claim C8: FC address round-trip
-/

theorem toPaddedHex16_length (n : Nat) : (toPaddedHex16 n).length = 16 := by
  rw [toPaddedHex16, List.length_map, hexDigitsRev_length]

theorem sliceChars_middle' (p m rest : List Char) :
    sliceChars ((p ++ m) ++ rest) p.length (p.length + m.length) = m := by
  rw [sliceChars]
  rw [show p.length + m.length = (p ++ m).length from (List.length_append p m).symm,
    List.take_left, List.drop_left]

theorem sliceChars_suffix (p m : List Char) :
    sliceChars (p ++ m) p.length (p.length + m.length) = m := by
  have h := sliceChars_middle' p m []
  rwa [List.append_nil] at h

/-- `to_traddr` with its (left-associated) append structure spelled out. -/
theorem to_traddr_eq2 (wwnn wwpn : Nat) :
    to_traddr ⟨wwnn, wwpn⟩
      = (("nn-0x".toList ++ toPaddedHex16 wwnn) ++ ":pn-0x".toList)
        ++ toPaddedHex16 wwpn := rfl

theorem to_traddr_length (wwnn wwpn : Nat) :
    (to_traddr ⟨wwnn, wwpn⟩).length = 43 := by
  rw [to_traddr_eq2, List.length_append, List.length_append, List.length_append,
    toPaddedHex16_length, toPaddedHex16_length]
  rfl

theorem to_traddr_slice1 (wwnn wwpn : Nat) :
    sliceChars (to_traddr ⟨wwnn, wwpn⟩) 5 21 = toPaddedHex16 wwnn := by
  have hmid := sliceChars_middle' "nn-0x".toList (toPaddedHex16 wwnn)
    (":pn-0x".toList ++ toPaddedHex16 wwpn)
  rw [toPaddedHex16_length] at hmid
  rw [show ("nn-0x".toList).length = 5 from rfl] at hmid
  rw [show (5 + 16 : Nat) = 21 from rfl] at hmid
  have hshape : to_traddr ⟨wwnn, wwpn⟩
      = ("nn-0x".toList ++ toPaddedHex16 wwnn)
        ++ (":pn-0x".toList ++ toPaddedHex16 wwpn) := by
    rw [to_traddr_eq2, List.append_assoc]
  rw [hshape]
  exact hmid

theorem to_traddr_slice2 (wwnn wwpn : Nat) :
    sliceChars (to_traddr ⟨wwnn, wwpn⟩) 27 43 = toPaddedHex16 wwpn := by
  have hmid := sliceChars_suffix
    (("nn-0x".toList ++ toPaddedHex16 wwnn) ++ ":pn-0x".toList) (toPaddedHex16 wwpn)
  have hP : ((("nn-0x".toList ++ toPaddedHex16 wwnn) ++ ":pn-0x".toList)).length = 27 := by
    rw [List.length_append, List.length_append, toPaddedHex16_length]
    rfl
  rw [hP, toPaddedHex16_length] at hmid
  rw [show (27 + 16 : Nat) = 43 from rfl] at hmid
  rw [to_traddr_eq2]
  exact hmid

/-- C8: for every pair of 64-bit values, parsing the canonical string
produced by `FibreChannelAddr::to_traddr` (`nn-0x{wwnn:016x}:pn-0x{wwpn:016x}`)
returns `Ok` of the same `FibreChannelAddr`. -/
theorem fc_round_trip (wwnn wwpn : Nat) (h1 : wwnn < 2 ^ 64) (h2 : wwpn < 2 ^ 64) :
    fc_from_str (to_traddr ⟨wwnn, wwpn⟩) = some ⟨wwnn, wwpn⟩ := by
  rw [fc_from_str]
  rw [if_pos (show (to_traddr ⟨wwnn, wwpn⟩).length = 7 + 4 + 32 by
    rw [to_traddr_length])]
  rw [to_traddr_slice1, to_traddr_slice2,
    parse_toPaddedHex16 wwnn h1, parse_toPaddedHex16 wwpn h2]

/-- C8 witness: the round-trip theorem applied to the WWNN/WWPN pair used in
the repository's own tests. -/
theorem fc_round_trip_witness :
    0x1000000044001123 < 2 ^ 64 ∧ 0x2000000055001123 < 2 ^ 64 ∧
      fc_from_str (to_traddr ⟨0x1000000044001123, 0x2000000055001123⟩)
        = some ⟨0x1000000044001123, 0x2000000055001123⟩ :=
  ⟨by norm_num, by norm_num,
    fc_round_trip 0x1000000044001123 0x2000000055001123 (by norm_num) (by norm_num)⟩

/-!
## Claim C6: Port serialization shape

Serde semantics of the derive attributes in `src/state/types.rs`:
`PortType` carries `#[serde(tag = "port_type", content = "port_addr")]`
(adjacent tagging — the tag is the variant identifier, since no `rename`
attribute is present; a unit variant has no content key), and `Port`
flattens it next to `subsystems`.
-/

inductive SerdeValue where
  | str (s : String)
  | sock (a : SocketAddr)
  | fcaddr (a : FibreChannelAddr)
  | list (xs : List String)
deriving DecidableEq, Repr

/-- The fields contributed by the adjacently-tagged `PortType`. -/
def portTypeFields : PortType → List (String × SerdeValue)
  | PortType.Loop => [("port_type", SerdeValue.str "Loop")]
  | PortType.Tcp a =>
    [("port_type", SerdeValue.str "Tcp"), ("port_addr", SerdeValue.sock a)]
  | PortType.Rdma a =>
    [("port_type", SerdeValue.str "Rdma"), ("port_addr", SerdeValue.sock a)]
  | PortType.FibreChannel a =>
    [("port_type", SerdeValue.str "FibreChannel"), ("port_addr", SerdeValue.fcaddr a)]

/-- Serialization of `Port`: the flattened `PortType` fields followed by
`subsystems` as a list. -/
def serializePort (p : Port) : List (String × SerdeValue) :=
  portTypeFields p.port_type
    ++ [("subsystems", SerdeValue.list (p.subsystems.map String.mk))]

/-- C6 counterexample: the `Loop` port serializes with discriminator value
`"Loop"` — the variant identifier — not one of `loop`/`tcp`/`rdma`/`fc` as
claimed (the derive carries no `rename` attribute). -/
theorem port_serde_cex :
    lookup (serializePort ⟨PortType.Loop, []⟩) "port_type" = some (SerdeValue.str "Loop") ∧
      ∀ t ∈ ["loop", "tcp", "rdma", "fc"],
        lookup (serializePort ⟨PortType.Loop, []⟩) "port_type" ≠ some (SerdeValue.str t) := by
  constructor
  · rfl
  · decide

/-- C6 (amended): every `Port` serializes with a discriminator field
`port_type` whose value is one of the variant identifiers
`"Loop"`, `"Tcp"`, `"Rdma"`, `"FibreChannel"`, with the payload under
`port_addr` (present for all variants but `Loop`), and with the
`subsystems` set serialized as a list. -/
theorem port_serde_shape (p : Port) :
    (∃ t, lookup (serializePort p) "port_type" = some (SerdeValue.str t) ∧
      (t = "Loop" ∨ t = "Tcp" ∨ t = "Rdma" ∨ t = "FibreChannel")) ∧
    ((lookup (serializePort p) "port_addr").isSome ↔ p.port_type ≠ PortType.Loop) ∧
    lookup (serializePort p) "subsystems"
      = some (SerdeValue.list (p.subsystems.map String.mk)) := by
  cases hpt : p.port_type with
  | Loop =>
    refine ⟨⟨"Loop", ?_, Or.inl rfl⟩, ?_, ?_⟩
    · simp [serializePort, portTypeFields, hpt, lookup]
    · simp [serializePort, portTypeFields, hpt, lookup]
    · simp [serializePort, portTypeFields, hpt, lookup]
  | Tcp a =>
    refine ⟨⟨"Tcp", ?_, Or.inr (Or.inl rfl)⟩, ?_, ?_⟩
    · simp [serializePort, portTypeFields, hpt, lookup]
    · simp [serializePort, portTypeFields, hpt, lookup]
    · simp [serializePort, portTypeFields, hpt, lookup]
  | Rdma a =>
    refine ⟨⟨"Rdma", ?_, Or.inr (Or.inr (Or.inl rfl))⟩, ?_, ?_⟩
    · simp [serializePort, portTypeFields, hpt, lookup]
    · simp [serializePort, portTypeFields, hpt, lookup]
    · simp [serializePort, portTypeFields, hpt, lookup]
  | FibreChannel a =>
    refine ⟨⟨"FibreChannel", ?_, Or.inr (Or.inr (Or.inr rfl))⟩, ?_, ?_⟩
    · simp [serializePort, portTypeFields, hpt, lookup]
    · simp [serializePort, portTypeFields, hpt, lookup]
    · simp [serializePort, portTypeFields, hpt, lookup]

/-!
## Claim C10: namespace enable-state scanning
-/

/-- A computation that either panics (`unreachable!`) or returns. -/
inductive PanicOr (α : Type) where
  | panic
  | ok (a : α)
deriving DecidableEq, Repr

/-- Rust `str::trim` (on the ASCII contents at issue): drop whitespace from
both ends. -/
def rust_trim (s : List Char) : List Char :=
  ((s.dropWhile Char.isWhitespace).reverse.dropWhile Char.isWhitespace).reverse

/-- `NvmetNamespace::is_enabled`: the `enable` attribute content is read via
`read_str` (read to end, trim) and matched against `"1"`/`"0"`; any other
content reaches `unreachable!()` — a panic, not an `Err`. -/
def is_enabled (raw : List Char) : PanicOr Bool :=
  match rust_trim raw with
  | ['1'] => PanicOr.ok true
  | ['0'] => PanicOr.ok false
  | _ => PanicOr.panic

/-- C10: `is_enabled` returns `true` for trimmed content `"1"`, `false` for
trimmed content `"0"`, and reaches the `unreachable!()` panic for any other
content — it never returns an error, so it is total exactly on contents
whose trimmed form is `"0"` or `"1"`. -/
theorem is_enabled_spec (raw : List Char) :
    (is_enabled raw = PanicOr.ok true ↔ rust_trim raw = ['1']) ∧
    (is_enabled raw = PanicOr.ok false ↔ rust_trim raw = ['0']) ∧
    (is_enabled raw = PanicOr.panic ↔ (rust_trim raw ≠ ['1'] ∧ rust_trim raw ≠ ['0'])) := by
  unfold is_enabled
  split
  next h => simp [h]
  next h => simp [h]
  next h1 h2 =>
    exact ⟨⟨fun hc => (nomatch hc), fun ha => absurd ha h1⟩,
      ⟨fun hc => (nomatch hc), fun hb => absurd hb h2⟩,
      ⟨fun _ => ⟨h1, h2⟩, fun _ => rfl⟩⟩

/-!
## Claim C7: namespace mutation temporal order
-/

/-- The primitive filesystem operations performed on one namespace. -/
inductive NsOp where
  | writeEnable (b : Bool)
  | writeDevicePath (p : String)
  | writeDeviceUuid (u : Uuid)
  | writeDeviceNguid (u : Uuid)
  | removeDir
deriving DecidableEq, Repr

/-- `NvmetNamespace::set_enabled`: one write of `"1"`/`"0"` to `enable`. -/
def set_enabled_trace (b : Bool) : List NsOp := [NsOp.writeEnable b]

/-- `NvmetNamespace::set_namespace`: disable first, then write
`device_path`, the optional `device_uuid` and `device_nguid`, and finally
write the desired enabled state. -/
def set_namespace_trace (ns : Namespace) : List NsOp :=
  set_enabled_trace false
  ++ [NsOp.writeDevicePath ns.device_path]
  ++ (match ns.device_uuid with
      | some u => [NsOp.writeDeviceUuid u]
      | none => [])
  ++ (match ns.device_nguid with
      | some g => [NsOp.writeDeviceNguid g]
      | none => [])
  ++ set_enabled_trace ns.enabled

/-- `NvmetSubsystem::delete_namespace`: disable first, then remove the
namespace directory. -/
def delete_namespace_trace : List NsOp := set_enabled_trace false ++ [NsOp.removeDir]

def isDeviceWrite : NsOp → Bool
  | NsOp.writeDevicePath _ => true
  | NsOp.writeDeviceUuid _ => true
  | NsOp.writeDeviceNguid _ => true
  | _ => false

/-- C7: every `set_namespace` trace starts by writing `0` to `enable`,
continues with device-attribute writes only, and ends with the single write
of the desired enable value — so no device attribute is ever written while
the namespace is enabled; a removed namespace is disabled before its
directory is removed. -/
theorem namespace_write_order (ns : Namespace) :
    (∃ mid, set_namespace_trace ns
        = NsOp.writeEnable false :: (mid ++ [NsOp.writeEnable ns.enabled]) ∧
      ∀ op ∈ mid, isDeviceWrite op = true) ∧
    delete_namespace_trace = [NsOp.writeEnable false, NsOp.removeDir] := by
  refine ⟨?_, rfl⟩
  cases hu : ns.device_uuid with
  | none =>
    cases hg : ns.device_nguid with
    | none =>
      refine ⟨[NsOp.writeDevicePath ns.device_path], ?_, ?_⟩
      · simp [set_namespace_trace, set_enabled_trace, hu, hg]
      · intro op hop
        rw [List.mem_singleton] at hop
        subst hop
        rfl
    | some g =>
      refine ⟨[NsOp.writeDevicePath ns.device_path, NsOp.writeDeviceNguid g], ?_, ?_⟩
      · simp [set_namespace_trace, set_enabled_trace, hu, hg]
      · intro op hop
        rcases List.mem_cons.mp hop with rfl | hop
        · rfl
        · rw [List.mem_singleton] at hop
          subst hop
          rfl
  | some u =>
    cases hg : ns.device_nguid with
    | none =>
      refine ⟨[NsOp.writeDevicePath ns.device_path, NsOp.writeDeviceUuid u], ?_, ?_⟩
      · simp [set_namespace_trace, set_enabled_trace, hu, hg]
      · intro op hop
        rcases List.mem_cons.mp hop with rfl | hop
        · rfl
        · rw [List.mem_singleton] at hop
          subst hop
          rfl
    | some g =>
      refine ⟨[NsOp.writeDevicePath ns.device_path, NsOp.writeDeviceUuid u,
        NsOp.writeDeviceNguid g], ?_, ?_⟩
      · simp [set_namespace_trace, set_enabled_trace, hu, hg]
      · intro op hop
        rcases List.mem_cons.mp hop with rfl | hop
        · rfl
        · rcases List.mem_cons.mp hop with rfl | hop
          · rfl
          · rw [List.mem_singleton] at hop
            subst hop
            rfl

/-!
## Claim C9: host deltas never touch `attr_allow_any_host`

Kernel-side state fragment relevant to host management of one subsystem:
the `hosts/` directory entries, the `allowed_hosts/` symlink names, and the
content of the subsystem's `attr_allow_any_host` file.
-/

structure KHostsState where
  hosts : List NQN
  allowed_hosts : List NQN
  attr_allow_any_host : String
deriving DecidableEq, Repr

/-- `NvmetSubsystem::enable_host`: create `hosts/<nqn>` if missing, then
create the `allowed_hosts/<nqn>` symlink; creating an already-existing
symlink fails. -/
def enable_host (st : KHostsState) (nqn : NQN) : Option KHostsState :=
  let st1 := if nqn ∈ st.hosts then st else { st with hosts := setInsert nqn st.hosts }
  if nqn ∈ st1.allowed_hosts then none
  else some { st1 with allowed_hosts := setInsert nqn st1.allowed_hosts }

/-- `NvmetSubsystem::disable_host`: remove the `allowed_hosts/<nqn>`
symlink; removing a missing symlink fails. -/
def disable_host (st : KHostsState) (nqn : NQN) : Option KHostsState :=
  if nqn ∈ st.allowed_hosts then
    some { st with allowed_hosts := setRemove nqn st.allowed_hosts }
  else none

/-- `NvmetSubsystem::set_allow_any`: write `"1"`/`"0"` to
`attr_allow_any_host`. -/
def set_allow_any (st : KHostsState) (enabled : Bool) : KHostsState :=
  { st with attr_allow_any_host := if enabled then "1" else "0" }

/-- `NvmetSubsystem::set_hosts` (reached from the `AddSubsystem` executor
branch): disable the hosts no longer wanted, write `attr_allow_any_host`
(`1` exactly when the desired set is empty), then enable the added hosts. -/
def set_hosts (st : KHostsState) (hosts : List NQN) : Option KHostsState :=
  (setDiff st.allowed_hosts hosts).foldlM (fun s h => disable_host s h) st |>.bind
    fun st1 =>
      (setDiff hosts st.allowed_hosts).foldlM (fun s h => enable_host s h)
        (set_allow_any st1 hosts.isEmpty)

/-- The `UpdateSubsystem` executor loop restricted to its effect on the
host state fragment: `AddHost`/`RemoveHost` call
`enable_host`/`disable_host`; the remaining sub-delta kinds write model,
serial or namespace attributes and leave this fragment unchanged. -/
def apply_host_deltas (st : KHostsState) (ds : List SubsystemDelta) : Option KHostsState :=
  ds.foldlM (fun s d =>
    match d with
    | SubsystemDelta.AddHost h => enable_host s h
    | SubsystemDelta.RemoveHost h => disable_host s h
    | _ => some s) st

theorem enable_host_frame (st : KHostsState) (nqn : NQN) (st2 : KHostsState)
    (h : enable_host st nqn = some st2) :
    st2.attr_allow_any_host = st.attr_allow_any_host ∧ ∀ x ∈ st.hosts, x ∈ st2.hosts := by
  unfold enable_host at h
  by_cases h1 : nqn ∈ st.hosts
  · rw [if_pos h1] at h
    by_cases h2 : nqn ∈ st.allowed_hosts
    · rw [if_pos h2] at h
      exact absurd h (by simp)
    · rw [if_neg h2] at h
      rw [Option.some_inj] at h
      subst h
      exact ⟨rfl, fun x hx => hx⟩
  · rw [if_neg h1] at h
    simp only at h
    by_cases h2 : nqn ∈ st.allowed_hosts
    · rw [if_pos h2] at h
      exact absurd h (by simp)
    · rw [if_neg h2] at h
      rw [Option.some_inj] at h
      subst h
      exact ⟨rfl, fun x hx => mem_setInsert.mpr (Or.inr hx)⟩

theorem disable_host_frame (st : KHostsState) (nqn : NQN) (st2 : KHostsState)
    (h : disable_host st nqn = some st2) :
    st2.attr_allow_any_host = st.attr_allow_any_host ∧ ∀ x ∈ st.hosts, x ∈ st2.hosts := by
  unfold disable_host at h
  by_cases h1 : nqn ∈ st.allowed_hosts
  · rw [if_pos h1, Option.some_inj] at h
    subst h
    exact ⟨rfl, fun x hx => hx⟩
  · rw [if_neg h1] at h
    exact absurd h (by simp)

theorem apply_host_deltas_frame (ds : List SubsystemDelta) :
    ∀ st st2 : KHostsState, apply_host_deltas st ds = some st2 →
      st2.attr_allow_any_host = st.attr_allow_any_host ∧ ∀ x ∈ st.hosts, x ∈ st2.hosts := by
  induction ds with
  | nil =>
    intro st st2 h
    rw [apply_host_deltas, List.foldlM_nil] at h
    obtain rfl : st = st2 := Option.some.inj h
    exact ⟨rfl, fun x hx => hx⟩
  | cons d ds ih =>
    intro st st2 h
    rw [apply_host_deltas, List.foldlM_cons] at h
    cases hstep : (match d with
      | SubsystemDelta.AddHost h => enable_host st h
      | SubsystemDelta.RemoveHost h => disable_host st h
      | _ => some st) with
    | none =>
      rw [hstep] at h
      exact Option.noConfusion h
    | some st1 =>
      rw [hstep] at h
      have hrest := ih st1 st2 h
      have hone : st1.attr_allow_any_host = st.attr_allow_any_host ∧
          ∀ x ∈ st.hosts, x ∈ st1.hosts := by
        cases d with
        | AddHost hn => exact enable_host_frame st hn st1 hstep
        | RemoveHost hn => exact disable_host_frame st hn st1 hstep
        | UpdateModel m =>
          rw [Option.some_inj] at hstep
          subst hstep
          exact ⟨rfl, fun x hx => hx⟩
        | UpdateSerial sn =>
          rw [Option.some_inj] at hstep
          subst hstep
          exact ⟨rfl, fun x hx => hx⟩
        | AddNamespace i n =>
          rw [Option.some_inj] at hstep
          subst hstep
          exact ⟨rfl, fun x hx => hx⟩
        | UpdateNamespace i n =>
          rw [Option.some_inj] at hstep
          subst hstep
          exact ⟨rfl, fun x hx => hx⟩
        | RemoveNamespace i =>
          rw [Option.some_inj] at hstep
          subst hstep
          exact ⟨rfl, fun x hx => hx⟩
      exact ⟨hrest.1.trans hone.1, fun x hx => hrest.2 x (hone.2 x hx)⟩

theorem foldlM_enable_attr (ks : List NQN) :
    ∀ st st2 : KHostsState,
      ks.foldlM (fun s h => enable_host s h) st = some st2 →
        st2.attr_allow_any_host = st.attr_allow_any_host := by
  induction ks with
  | nil =>
    intro st st2 h
    rw [List.foldlM_nil] at h
    obtain rfl : st = st2 := Option.some.inj h
    rfl
  | cons k ks ih =>
    intro st st2 h
    rw [List.foldlM_cons] at h
    cases hstep : enable_host st k with
    | none =>
      rw [hstep] at h
      exact Option.noConfusion h
    | some st1 =>
      rw [hstep] at h
      exact (ih st1 st2 h).trans (enable_host_frame st k st1 hstep).1

/-- C9: executing the host sub-deltas of an `UpdateSubsystem`
(`AddHost`/`RemoveHost` via `enable_host`/`disable_host`) never writes the
subsystem's `attr_allow_any_host` file — its content is retained verbatim,
even when the allowed-host set becomes empty — and never removes a `hosts/`
directory entry; `attr_allow_any_host` is written (to `1` iff the desired
host set is empty) only by `set_hosts` on the `AddSubsystem` path. -/
theorem update_host_deltas_no_allow_any (st : KHostsState) (ds : List SubsystemDelta)
    (st2 : KHostsState) (h : apply_host_deltas st ds = some st2) :
    st2.attr_allow_any_host = st.attr_allow_any_host ∧
      (∀ x ∈ st.hosts, x ∈ st2.hosts) ∧
      ∀ (hosts : List NQN) (st3 : KHostsState), set_hosts st hosts = some st3 →
        st3.attr_allow_any_host = (if hosts.isEmpty then "1" else "0") := by
  obtain ⟨h1, h2⟩ := apply_host_deltas_frame ds st st2 h
  refine ⟨h1, h2, ?_⟩
  intro hosts st3 hset
  rw [set_hosts] at hset
  cases hd : (setDiff st.allowed_hosts hosts).foldlM (fun s h => disable_host s h) st with
  | none =>
    rw [hd] at hset
    exact Option.noConfusion hset
  | some st1 =>
    rw [hd] at hset
    have := foldlM_enable_attr (setDiff hosts st.allowed_hosts)
      (set_allow_any st1 hosts.isEmpty) st3 hset
    rw [this, set_allow_any]

def exHostSt : KHostsState := ⟨["nqn.h".toList], ["nqn.h".toList], "0"⟩

def exHostSt2 : KHostsState := ⟨["nqn.h".toList], [], "0"⟩

/-- C9 witness: removing the last allowed host leaves `attr_allow_any_host`
untouched (still `"0"`). -/
theorem update_host_deltas_no_allow_any_witness :
    apply_host_deltas exHostSt [SubsystemDelta.RemoveHost ("nqn.h".toList)]
      = some exHostSt2 ∧
    (exHostSt2.attr_allow_any_host = exHostSt.attr_allow_any_host ∧
      (∀ x ∈ exHostSt.hosts, x ∈ exHostSt2.hosts) ∧
      ∀ (hosts : List NQN) (st3 : KHostsState),
        set_hosts exHostSt hosts = some st3 →
          st3.attr_allow_any_host = (if hosts.isEmpty then "1" else "0")) :=
  ⟨by decide, update_host_deltas_no_allow_any exHostSt
    [SubsystemDelta.RemoveHost ("nqn.h".toList)] exHostSt2 (by decide)⟩

/-!
## Claim C4: orphan host garbage collection

Filesystem state fragment for the `RemoveSubsystem` executor branch: each
subsystem's `allowed_hosts` symlink names, each port's `subsystems` links,
and the `hosts/` directory entries. The `NvmetRoot::list_hosts` called by
`apply_delta` is `NvmetRoot::list_used_hosts` in `sysfs.rs`: the union of
every subsystem's allowed-host set.
-/

structure FsState where
  subsystems : List (NQN × List NQN)
  ports : List (Nat × List NQN)
  hosts : List NQN
deriving DecidableEq, Repr

/-- `NvmetRoot::list_used_hosts`: append every subsystem's allowed-host set
into one `BTreeSet`. -/
def list_used_hosts (st : FsState) : List NQN :=
  st.subsystems.foldl (fun acc kv => kv.2.foldl (fun a h => setInsert h a) acc) []

/-- `NvmetRoot::remove_host`: remove the `hosts/<nqn>` directory; fails if
it is missing. -/
def fs_remove_host (st : FsState) (nqn : NQN) : Option FsState :=
  if nqn ∈ st.hosts then some { st with hosts := setRemove nqn st.hosts } else none

/-- The `RemoveSubsystem` branch of `KernelConfig::apply_delta`: check
existence, snapshot the used hosts and the subsystem's own hosts, unlink
the subsystem from every port, delete the subsystem (which drops its
allowed-host symlinks and namespaces), recompute the used hosts, and remove
the `hosts/` entry of every host of ours that became unused. -/
def remove_subsystem_apply (st : FsState) (nqn : NQN) : Option FsState :=
  match lookup st.subsystems nqn with
  | none => none
  | some our_hosts =>
    let prev_hosts := list_used_hosts st
    let st1 : FsState :=
      { st with ports := st.ports.map (fun kv => (kv.1, setRemove nqn kv.2)) }
    let st2 : FsState := { st1 with subsystems := mapRemove nqn st1.subsystems }
    (setDiff prev_hosts (list_used_hosts st2)).foldlM
      (fun s h => if h ∈ our_hosts then fs_remove_host s h else some s) st2

theorem mem_used_aux (l : List (NQN × List NQN)) :
    ∀ (acc : List NQN) (h : NQN),
      (h ∈ l.foldl (fun a kv => kv.2.foldl (fun a2 x => setInsert x a2) a) acc ↔
        h ∈ acc ∨ ∃ kv ∈ l, h ∈ kv.2) := by
  induction l with
  | nil =>
    intro acc h
    simp
  | cons kv l ih =>
    intro acc h
    rw [List.foldl_cons, ih, mem_foldl_setInsert]
    constructor
    · rintro ((ha | hh) | ⟨kv2, hkv2, hh⟩)
      · exact Or.inl ha
      · exact Or.inr ⟨kv, List.mem_cons_self kv l, hh⟩
      · exact Or.inr ⟨kv2, List.mem_cons_of_mem kv hkv2, hh⟩
    · rintro (ha | ⟨kv2, hkv2, hh⟩)
      · exact Or.inl (Or.inl ha)
      · rcases List.mem_cons.mp hkv2 with rfl | hkv2
        · exact Or.inl (Or.inr hh)
        · exact Or.inr ⟨kv2, hkv2, hh⟩

theorem mem_list_used_hosts (st : FsState) (h : NQN) :
    h ∈ list_used_hosts st ↔ ∃ kv ∈ st.subsystems, h ∈ kv.2 := by
  rw [list_used_hosts, mem_used_aux]
  simp

theorem setwf_used_aux (l : List (NQN × List NQN)) :
    ∀ acc : List NQN, SetWF acc →
      SetWF (l.foldl (fun a kv => kv.2.foldl (fun a2 x => setInsert x a2) a) acc) := by
  induction l with
  | nil =>
    intro acc h
    exact h
  | cons kv l ih =>
    intro acc h
    rw [List.foldl_cons]
    exact ih _ (setwf_foldl_setInsert kv.2 h)

theorem setwf_list_used_hosts (st : FsState) : SetWF (list_used_hosts st) :=
  setwf_used_aux st.subsystems [] List.Pairwise.nil

theorem mem_mapRemove {K V : Type} [DecidableEq K] {k : K} {kv : K × V}
    {l : List (K × V)} : kv ∈ mapRemove k l ↔ kv ∈ l ∧ kv.1 ≠ k := by
  simp [mapRemove, List.mem_filter]

theorem foldlM_remove_orphans (our : List NQN) (L : List NQN) :
    ∀ st : FsState, L.Nodup →
      (∀ h ∈ L, h ∈ our → h ∈ st.hosts) →
      ∃ st2,
        L.foldlM (fun s h => if h ∈ our then fs_remove_host s h else some s) st
            = some st2 ∧
          st2.hosts = st.hosts.filter (fun h => decide (¬(h ∈ L ∧ h ∈ our))) ∧
          st2.subsystems = st.subsystems ∧ st2.ports = st.ports := by
  induction L with
  | nil =>
    intro st _ _
    refine ⟨st, ?_, ?_, rfl, rfl⟩
    · rw [List.foldlM_nil]
      rfl
    · symm
      apply List.filter_eq_self.mpr
      intro a _
      simp
  | cons x L ih =>
    intro st hnd hhost
    have hxL : x ∉ L := (List.nodup_cons.mp hnd).1
    have hndL : L.Nodup := (List.nodup_cons.mp hnd).2
    by_cases hx : x ∈ our
    · have hxh : x ∈ st.hosts := hhost x (List.mem_cons_self x L) hx
      have hstep : (if x ∈ our then fs_remove_host st x else some st)
          = some ⟨st.subsystems, st.ports, setRemove x st.hosts⟩ := by
        rw [if_pos hx, fs_remove_host, if_pos hxh]
      have hh : ∀ h ∈ L, h ∈ our →
          h ∈ (⟨st.subsystems, st.ports, setRemove x st.hosts⟩ : FsState).hosts := by
        intro h hL hour
        exact mem_setRemove.mpr
          ⟨hhost h (List.mem_cons_of_mem x hL) hour, fun he => hxL (he ▸ hL)⟩
      obtain ⟨st2, hfold, hhosts, hsubs, hports⟩ :=
        ih ⟨st.subsystems, st.ports, setRemove x st.hosts⟩ hndL hh
      refine ⟨st2, ?_, ?_, hsubs, hports⟩
      · rw [List.foldlM_cons]
        show ((if x ∈ our then fs_remove_host st x else some st) >>= fun s =>
          L.foldlM (fun s h => if h ∈ our then fs_remove_host s h else some s) s)
            = some st2
        rw [hstep]
        exact hfold
      · rw [hhosts]
        show (st.hosts.filter (fun y => decide (y ≠ x))).filter
            (fun h => decide (¬(h ∈ L ∧ h ∈ our)))
          = st.hosts.filter (fun h => decide (¬(h ∈ x :: L ∧ h ∈ our)))
        rw [List.filter_filter]
        apply List.filter_congr
        intro a _
        by_cases hax : a = x
        · subst hax
          simp [hx]
        · simp [hax]
    · have hstep : (if x ∈ our then fs_remove_host st x else some st) = some st :=
        if_neg hx
      obtain ⟨st2, hfold, hhosts, hsubs, hports⟩ :=
        ih st hndL (fun h hL hour => hhost h (List.mem_cons_of_mem x hL) hour)
      refine ⟨st2, ?_, ?_, hsubs, hports⟩
      · rw [List.foldlM_cons]
        show ((if x ∈ our then fs_remove_host st x else some st) >>= fun s =>
          L.foldlM (fun s h => if h ∈ our then fs_remove_host s h else some s) s)
            = some st2
        rw [hstep]
        exact hfold
      · rw [hhosts]
        apply List.filter_congr
        intro a _
        by_cases hax : a = x
        · subst hax
          simp [hx]
        · simp [hax]

/-- C4: removing an existing subsystem succeeds and removes from `hosts/`
exactly the hosts that were in the removed subsystem's allowed-host set and
are referenced by no remaining subsystem (H_our ∩ (H_before \ H_after));
every host still referenced by another subsystem is preserved. -/
theorem remove_subsystem_host_gc (st : FsState) (nqn : NQN) (our : List NQN)
    (hwf : ∀ kv ∈ st.subsystems, ∀ h ∈ kv.2, h ∈ st.hosts)
    (hsub : lookup st.subsystems nqn = some our) :
    ∃ st2, remove_subsystem_apply st nqn = some st2 ∧
      (∀ h, h ∈ st2.hosts ↔
        h ∈ st.hosts ∧
          ¬(h ∈ our ∧ ¬∃ kv ∈ st.subsystems, kv.1 ≠ nqn ∧ h ∈ kv.2)) ∧
      ∀ h ∈ st.hosts,
        (∃ kv ∈ st.subsystems, kv.1 ≠ nqn ∧ h ∈ kv.2) → h ∈ st2.hosts := by
  have hndL : (setDiff (list_used_hosts st)
      (list_used_hosts ⟨mapRemove nqn st.subsystems,
        st.ports.map (fun kv => (kv.1, setRemove nqn kv.2)), st.hosts⟩)).Nodup := by
    rw [setDiff]
    exact setwf_nodup (setwf_filter _ (setwf_list_used_hosts st))
  have hpre : ∀ h ∈ setDiff (list_used_hosts st)
      (list_used_hosts ⟨mapRemove nqn st.subsystems,
        st.ports.map (fun kv => (kv.1, setRemove nqn kv.2)), st.hosts⟩),
      h ∈ our →
        h ∈ (⟨mapRemove nqn st.subsystems,
          st.ports.map (fun kv => (kv.1, setRemove nqn kv.2)), st.hosts⟩
            : FsState).hosts := by
    intro h hL _
    obtain ⟨kv, hkv, hh⟩ := (mem_list_used_hosts st h).mp (mem_setDiff.mp hL).1
    exact hwf kv hkv h hh
  obtain ⟨st2, hfold, hhosts, hsubs, hports⟩ :=
    foldlM_remove_orphans our
      (setDiff (list_used_hosts st)
        (list_used_hosts ⟨mapRemove nqn st.subsystems,
          st.ports.map (fun kv => (kv.1, setRemove nqn kv.2)), st.hosts⟩))
      ⟨mapRemove nqn st.subsystems,
        st.ports.map (fun kv => (kv.1, setRemove nqn kv.2)), st.hosts⟩ hndL hpre
  refine ⟨st2, ?_, ?_, ?_⟩
  · rw [remove_subsystem_apply.eq_def, hsub]
    exact hfold
  · intro h
    rw [hhosts, List.mem_filter]
    simp only [decide_eq_true_eq]
    constructor
    · rintro ⟨hmem, hnot⟩
      refine ⟨hmem, ?_⟩
      rintro ⟨hour, hno⟩
      apply hnot
      refine ⟨?_, hour⟩
      rw [mem_setDiff]
      constructor
      · rw [mem_list_used_hosts]
        exact ⟨(nqn, our), mem_of_lookup_eq_some hsub, hour⟩
      · intro hcur
        apply hno
        obtain ⟨kv, hkv, hh⟩ := (mem_list_used_hosts _ h).mp hcur
        have hkv2 : kv ∈ mapRemove nqn st.subsystems := hkv
        rw [mem_mapRemove] at hkv2
        exact ⟨kv, hkv2.1, hkv2.2, hh⟩
    · rintro ⟨hmem, hnot⟩
      refine ⟨hmem, ?_⟩
      rintro ⟨hL, hour⟩
      apply hnot
      refine ⟨hour, ?_⟩
      rintro ⟨kv, hkv, hne, hh⟩
      apply (mem_setDiff.mp hL).2
      rw [mem_list_used_hosts]
      exact ⟨kv, (mem_mapRemove.mpr ⟨hkv, hne⟩ : kv ∈ mapRemove nqn st.subsystems), hh⟩
  · intro h hh hex
    rw [hhosts, List.mem_filter]
    refine ⟨hh, ?_⟩
    simp only [decide_eq_true_eq]
    rintro ⟨hL, _⟩
    obtain ⟨kv, hkv, hne, hhm⟩ := hex
    apply (mem_setDiff.mp hL).2
    rw [mem_list_used_hosts]
    exact ⟨kv, (mem_mapRemove.mpr ⟨hkv, hne⟩ : kv ∈ mapRemove nqn st.subsystems), hhm⟩

def exFs : FsState :=
  ⟨[("nqn.a".toList, ["nqn.h".toList]), ("nqn.b".toList, ["nqn.h".toList])], [],
    ["nqn.h".toList]⟩

/-- C4 witness: two subsystems share one host; removing one subsystem
preserves the still-referenced host directory. -/
theorem remove_subsystem_host_gc_witness :
    ((∀ kv ∈ exFs.subsystems, ∀ h ∈ kv.2, h ∈ exFs.hosts) ∧
      lookup exFs.subsystems ("nqn.a".toList) = some ["nqn.h".toList]) ∧
    (∃ st2, remove_subsystem_apply exFs ("nqn.a".toList) = some st2 ∧
      (∀ h, h ∈ st2.hosts ↔
        h ∈ exFs.hosts ∧
          ¬(h ∈ ["nqn.h".toList] ∧
            ¬∃ kv ∈ exFs.subsystems, kv.1 ≠ ("nqn.a".toList) ∧ h ∈ kv.2)) ∧
      ∀ h ∈ exFs.hosts,
        (∃ kv ∈ exFs.subsystems, kv.1 ≠ ("nqn.a".toList) ∧ h ∈ kv.2) →
          h ∈ st2.hosts) :=
  ⟨⟨by decide, by decide⟩,
    remove_subsystem_host_gc exFs ("nqn.a".toList) ["nqn.h".toList]
      (by decide) (by decide)⟩
